import Mathlib

/-!
# BigInteger: a shallow embedding of `src/main.cpp`

`struct BigInteger` stores a sign flag and a `vector<int>` of limbs in base
`10^8`, least-significant limb first.  The C++ functions are embedded as
executable Lean functions:

* `vector<int>` is `List Int`, `std::string` is `List Char`;
* every `while` loop (and the `for (k = 1; carry; k++)` loop) takes a step
  budget `fuel`; when the budget runs out the result is `Fault.outOfFuel`;
* everything that stops the C++ program from returning a value (a failed
  `assert`, an exception of the standard library, undefined behaviour such as
  `back()` on an empty vector) is a `Fault`;
* limbs are `Int` with the range of `int` checked (`int32`) or wrapped
  (`toInt32`) where the C++ code computes or stores them; `/` and `%` are the
  truncating `Int.tdiv` and `Int.tmod`;
* positions, lengths and loop counters are unbounded numbers: sequences are
  taken to be shorter than `2^31`, so that the `int` counters do not overflow.

The statements are written with `value` (the number denoted by a limb
sequence), `toInt`, the representation invariant `Inv`, `digitsValue` (the
number written by a digit string) and `decimal` (the standard numeral).
-/

/-- Reasons for which an execution delivers no value. -/
inductive Fault where
  /-- An `assert` does not hold. -/
  | assertFailed
  /-- The `operator[]` of a vector or string is used past the end. -/
  | outOfBounds
  /-- The member `back()` or `pop_back()` is called on an empty vector. -/
  | emptyBack
  /-- An `int` computation leaves the range of `int`. -/
  | signedOverflow
  /-- Thrown by `std::stoi` when no digit can be converted. -/
  | invalidArgument
  /-- Thrown by `std::stoi` (value is no `int`) or by `substr` (bad position). -/
  | outOfRange
  /-- The step budget given to a loop of the model is used up. -/
  | outOfFuel
  deriving DecidableEq, Repr

/-- The C++ `struct BigInteger`: `sign` is `true` for a number that is not
negative, `s` holds the limbs, least significant first. -/
structure BigInteger where
  sign : Bool
  s : List Int
  deriving DecidableEq, Repr

namespace BigInteger

/-- `static const int BASE = 100000000;` -/
def BASE : Int := 100000000

/-- `static const int WIDTH = 8;` -/
def WIDTH : Int := 8

/-- Result of an `int` computation: a fault when it leaves `[-2^31, 2^31)`. -/
def int32 (x : Int) : Except Fault Int :=
  if -2147483648 ≤ x ∧ x ≤ 2147483647 then .ok x else .error .signedOverflow

/-- Conversion of a `long long` to `int` on assignment (two's complement wrap). -/
def toInt32 (x : Int) : Int :=
  (x + 2147483648) % 4294967296 - 2147483648

/-- Read `v[i]` of a `vector<int>`. -/
def idx (v : List Int) (i : Nat) : Except Fault Int :=
  match v[i]? with
  | some x => .ok x
  | none => .error .outOfBounds

/-- Read `str[i]` of a `const std::string`: position `size()` holds the
terminating null character, later positions are out of bounds. -/
def charAt (str : List Char) (i : Nat) : Except Fault Char :=
  match str[i]? with
  | some c => .ok c
  | none => if i = str.length then .ok (Char.ofNat 0) else .error .outOfBounds

/-- `bool isdigit(const char c) { return c >= '0' && c <= '9'; }` -/
def isdigit (c : Char) : Bool :=
  decide ('0' ≤ c) && decide (c ≤ '9')

/-- The loop of `cmp`, `for (int i = n - 1; i >= 0; i--)`; the argument is
`i + 1`.  The value is the operand of the `return` statement that is reached. -/
def cmpLoop (a b : List Int) : Nat → Except Fault Int
  | 0 => .ok 0
  | i + 1 => do
    let ai ← idx a i
    let bi ← idx b i
    if ai < bi then .ok (-1)
    else if ai > bi then .ok 1
    else cmpLoop a b i

/-- The operand of the `return` statement that `cmp` reaches. -/
def cmpReturned (a b : List Int) : Except Fault Int :=
  if a.length < b.length then .ok (-1)
  else if a.length > b.length then .ok 1
  else cmpLoop a b a.length

/-- `bool cmp(const vector<int>& a, const vector<int>& b)`: the returned
operand is converted to the return type `bool`, so `-1` and `1` both become
`true` and `0` becomes `false`. -/
def cmp (a b : List Int) : Except Fault Bool := do
  let r ← cmpReturned a b
  .ok (decide (r ≠ 0))

/-- The initialisation `int cmp_res = cmp(a, b);` in `operator+`: what the
caller of `cmp` receives, the `bool` converted to `int`. -/
def cmp_res (a b : List Int) : Except Fault Int := do
  let c ← cmp a b
  .ok (if c then 1 else 0)

/-- Default constructor `BigInteger() : sign(true), s(1, 0)`. -/
def zero : BigInteger := ⟨true, [0]⟩

/-- The loop `while (new_vec.back() == 0) new_vec.pop_back();`. -/
def strip : Nat → List Int → Except Fault (List Int)
  | 0, _ => .error .outOfFuel
  | fuel + 1, v =>
    match v.getLast? with
    | none => .error .emptyBack
    | some x => if x = 0 then strip fuel v.dropLast else .ok v

/-- The loop of the equal-sign branch of `operator+`
(`while (i < a.size() || j < b.size() || carry)`), with the state
`i`, `j`, `carry`, `new_vec`. -/
def addLoop (a b : List Int) : Nat → Nat → Nat → Int → List Int → Except Fault (List Int)
  | 0, _, _, _, _ => .error .outOfFuel
  | fuel + 1, i, j, carry, new_vec =>
    if i < a.length ∨ j < b.length ∨ carry ≠ 0 then do
      let x ← (if i < a.length then idx a i else Except.ok 0)
      let y ← (if j < b.length then idx b i else Except.ok 0)
      let xy ← int32 (x + y)
      let sum ← int32 (xy + carry)
      addLoop a b fuel (i + 1) (j + 1) (carry.tdiv BASE) (new_vec ++ [sum.tmod BASE])
    else .ok new_vec

/-- The loop of the two different-sign branches of `operator+`: limb `p[i]`
is subtracted from limb `q[j]` (`sub = q[j] - p[i] + carry`).  The branch
commented `a < b` runs it with `p = a`, `q = b`; the branch commented `a > b`
runs it with `p = b`, `q = a`. -/
def subLoop (p q : List Int) : Nat → Nat → Nat → Int → List Int → Except Fault (List Int)
  | 0, _, _, _, _ => .error .outOfFuel
  | fuel + 1, i, j, carry, new_vec =>
    if i < p.length ∨ j < q.length ∨ carry ≠ 0 then do
      let x ← (if i < p.length then idx p i else Except.ok 0)
      let y ← (if j < q.length then idx q j else Except.ok 0)
      let yx ← int32 (y - x)
      let sub ← int32 (yx + carry)
      if sub < 0 then do
        let sub2 ← int32 (sub + BASE)
        subLoop p q fuel (i + 1) (j + 1) (-1) (new_vec ++ [sub2])
      else
        subLoop p q fuel (i + 1) (j + 1) 0 (new_vec ++ [sub])
    else .ok new_vec

/-- `BigInteger BigInteger::operator+(const BigInteger& rhs)`. -/
def add (fuel : Nat) (self rhs : BigInteger) : Except Fault BigInteger :=
  let a := self.s
  let b := rhs.s
  if self.sign = rhs.sign then do
    let new_vec ← addLoop a b fuel 0 0 0 []
    .ok ⟨self.sign, new_vec⟩
  else do
    let c ← cmp a b
    let cmp_res : Int := if c then 1 else 0
    if cmp_res = 0 then .ok zero
    else if cmp_res > 0 then do
      let new_vec ← subLoop a b fuel 0 0 0 []
      let new_vec ← strip fuel new_vec
      .ok ⟨rhs.sign, new_vec⟩
    else do
      let new_vec ← subLoop b a fuel 0 0 0 []
      let new_vec ← strip fuel new_vec
      .ok ⟨self.sign, new_vec⟩

/-- The loop `for (int k = 1; carry; k++)` of `operator*`; `pos` is `i + j`.
The sum `new_vec[pos + k] + carry` is a `long long` stored into an `int`. -/
def carryLoop (pos : Nat) : Nat → Nat → Int → List Int → Except Fault (List Int)
  | 0, _, _, _ => .error .outOfFuel
  | fuel + 1, k, carry, new_vec =>
    if carry ≠ 0 then do
      let v ← idx new_vec (pos + k)
      let v1 := toInt32 (v + carry)
      carryLoop pos fuel (k + 1) (carry.tdiv BASE) (new_vec.set (pos + k) (v1.tmod BASE))
    else .ok new_vec

/-- The body of the two nested `for` loops of `operator*` for one pair
`(i, j)`.  The product of two `int` values always fits `long long`. -/
def mulStep (fuel : Nat) (a b : List Int) (i j : Nat) (new_vec : List Int) :
    Except Fault (List Int) := do
  let ai ← idx a i
  let bj ← idx b j
  let product : Int := ai * bj
  let v ← idx new_vec (i + j)
  let v1 := toInt32 (v + product.tmod BASE)
  let carry : Int := v1.tdiv BASE + product.tdiv BASE
  carryLoop (i + j) fuel 1 carry (new_vec.set (i + j) (v1.tmod BASE))

/-- The loop `for (int j = 0; j < b.size(); j++)` of `operator*`. -/
def mulRow (fuel : Nat) (a b : List Int) (i : Nat) (new_vec : List Int) :
    Except Fault (List Int) :=
  (List.range b.length).foldlM (fun v j => mulStep fuel a b i j v) new_vec

/-- The loop `for (int i = 0; i < a.size(); i++)` of `operator*`. -/
def mulLoop (fuel : Nat) (a b : List Int) (new_vec : List Int) : Except Fault (List Int) :=
  (List.range a.length).foldlM (fun v i => mulRow fuel a b i v) new_vec

/-- `BigInteger BigInteger::operator*(const BigInteger& rhs)`. -/
def mul (fuel : Nat) (self rhs : BigInteger) : Except Fault BigInteger := do
  let a := self.s
  let b := rhs.s
  let new_vec ← mulLoop fuel a b (List.replicate (a.length + b.length) 0)
  let new_vec ← strip fuel new_vec
  .ok ⟨self.sign == rhs.sign, new_vec⟩

/-- Closed form of one step of `operator*` when no limb overflows: the low
part of the product `P` is added into the limb at `pos`, and the carry (the
overflow of that limb plus the high part of `P`) into the limb at `pos + 1`,
whose own overflow is dropped. -/
def accumulate (v : List Int) (pos : Nat) (P : Int) : List Int :=
  (v.set pos ((v.getD pos 0 + P % BASE) % BASE)).set (pos + 1)
    ((v.getD (pos + 1) 0 + ((v.getD pos 0 + P % BASE) / BASE + P / BASE)) % BASE)

/-- The character class of `std::isspace` in the C locale. -/
def isspace (c : Char) : Bool :=
  c = ' ' || c = '\t' || c = '\n' || c = Char.ofNat 11 || c = Char.ofNat 12 || c = '\r'

/-- Value of a run of decimal digit characters, most significant first. -/
def digitsValue (ds : List Char) : Nat :=
  ds.foldl (fun acc c => 10 * acc + (c.toNat - 48)) 0

/-- The library function `std::stoi(const string&)`: white space is skipped,
an optional sign is read, then the longest run of decimal digits is
converted; what follows the digits is ignored.  No digit at all throws
`std::invalid_argument`, a value that is no `int` throws `std::out_of_range`. -/
def stoi (str : List Char) : Except Fault Int :=
  let body := str.dropWhile isspace
  let negative := body.head? = some '-'
  let unsigned := if body.head? = some '-' ∨ body.head? = some '+' then body.tail else body
  let ds := unsigned.takeWhile isdigit
  if ds = [] then .error .invalidArgument
  else
    let v : Int := if negative then -(digitsValue ds : Int) else (digitsValue ds : Int)
    if -2147483648 ≤ v ∧ v ≤ 2147483647 then .ok v else .error .outOfRange

/-- The library function `std::string::substr(pos, n)`. -/
def substr (str : List Char) (pos n : Nat) : Except Fault (List Char) :=
  if str.length < pos then .error .outOfRange else .ok ((str.drop pos).take n)

/-- The loop `while (str[start_pos] == '0') start_pos++;`. -/
def skipZeros (str : List Char) : Nat → Nat → Except Fault Nat
  | 0, _ => .error .outOfFuel
  | fuel + 1, start_pos => do
    let c ← charAt str start_pos
    if c = '0' then skipZeros str fuel (start_pos + 1) else .ok start_pos

/-- The loop `while (r > start_pos)` of the two string constructors, with the
state `r`, `p` and the member `s`. -/
def parseLoop (str : List Char) (start_pos : Nat) :
    Nat → Int → Int → List Int → Except Fault (List Int)
  | 0, _, _, _ => .error .outOfFuel
  | fuel + 1, r, p, s =>
    if r > (start_pos : Int) then do
      let sstr ← substr str p.toNat (r - p).toNat
      let limb ← stoi sstr
      parseLoop str start_pos fuel (r - WIDTH) (max (start_pos : Int) (r - WIDTH - WIDTH))
        (s ++ [limb])
    else .ok s

/-- `BigInteger::BigInteger(const string& str)`. -/
def ofString (fuel : Nat) (str : List Char) : Except Fault BigInteger := do
  if str.isEmpty then .error .assertFailed
  else do
    let c0 ← charAt str 0
    let sign : Bool := if c0 = '-' then false else true
    let start_pos ← skipZeros str fuel (if isdigit c0 then 0 else 1)
    let r : Int := str.length
    let p : Int := max (start_pos : Int) (r - WIDTH)
    let s ← parseLoop str start_pos fuel r p []
    .ok ⟨sign, s⟩

/-- `BigInteger::BigInteger(bool sign, const string& str)`. -/
def ofSignString (fuel : Nat) (sign : Bool) (str : List Char) : Except Fault BigInteger := do
  let start_pos ← skipZeros str fuel 0
  let r : Int := str.length
  let p : Int := max (start_pos : Int) (r - WIDTH)
  let s ← parseLoop str start_pos fuel r p []
  .ok ⟨sign, s⟩

/-- The loop `while (num)` of the constructor from `long long`; the limb
`num % BASE` is a `long long` stored into an `int`. -/
def longLoop : Nat → Int → List Int → Except Fault (List Int)
  | 0, _, _ => .error .outOfFuel
  | fuel + 1, num, s =>
    if num ≠ 0 then longLoop fuel (num.tdiv BASE) (s ++ [toInt32 (num.tmod BASE)])
    else .ok s

/-- `BigInteger::BigInteger(long long num)`; negating the least `long long`
overflows. -/
def ofLongLong (fuel : Nat) (num : Int) : Except Fault BigInteger := do
  let num ← (if num < 0 then
      (if -num ≤ 9223372036854775807 then Except.ok (-num) else Except.error Fault.signedOverflow)
    else Except.ok num)
  let sign : Bool := decide (num ≥ 0)
  if num = 0 then .ok ⟨sign, [0]⟩
  else do
    let s ← longLoop fuel num []
    .ok ⟨sign, s⟩

/-- The library function `std::to_string(int)`. -/
def to_string (x : Int) : List Char :=
  if x < 0 then '-' :: Nat.toDigits 10 x.natAbs else Nat.toDigits 10 x.natAbs

/-- Output of a string under `setw(w)` and `setfill('0')`: filled on the left. -/
def setw_fill (w : Nat) (str : List Char) : List Char :=
  List.replicate (w - str.length) '0' ++ str

/-- The loop `for (int i = (int)s.size() - 2; i >= 0; i--)` of `operator<<`;
the argument is `i + 1`, the result is the text written. -/
def printLoop (s : List Int) : Nat → Except Fault (List Char)
  | 0 => .ok []
  | i + 1 => do
    let x ← idx s i
    let rest ← printLoop s i
    .ok (setw_fill WIDTH.toNat (to_string x) ++ rest)

/-- `ostream& operator<<(ostream& os, const BigInteger& rhs)`: the text
written to the stream. -/
def print (rhs : BigInteger) : Except Fault (List Char) := do
  let s := rhs.s
  let isZero ← (if s.length = 1 then (idx s 0).map (fun s0 => decide (s0 = 0))
    else Except.ok false)
  if isZero then .ok ['0']
  else if ¬ (s.length ≥ 1) then .error .assertFailed
  else do
    let minus : List Char := if rhs.sign = false then ['-'] else []
    let back ← match s.getLast? with
      | some x => .ok x
      | none => .error .emptyBack
    let rest ← printLoop s (s.length - 1)
    .ok (minus ++ to_string back ++ rest)

/-- The limbs `s[n-1]`, ..., `s[0]`, from most to least significant, each
written in decimal and zero-padded to `WIDTH` digits. -/
def paddedLimbs (s : List Int) : Nat → List Char
  | 0 => []
  | i + 1 => setw_fill WIDTH.toNat (to_string (s.getD i 0)) ++ paddedLimbs s i

/-- The standard decimal numeral of an integer: `-` for a negative number,
then the decimal digits of the absolute value, without leading zero (the
single digit `0` for zero). -/
def decimal (z : Int) : List Char :=
  if z < 0 then '-' :: Nat.toDigits 10 z.natAbs else Nat.toDigits 10 z.natAbs

/-- The number denoted by a limb sequence in base `BASE`, least significant
limb first. -/
def value : List Int → Int
  | [] => 0
  | x :: xs => x + BASE * value xs

/-- The integer denoted by a `BigInteger`. -/
def toInt (x : BigInteger) : Int :=
  if x.sign then value x.s else -value x.s

/-- Representation invariant: the limbs are not empty, every limb is in
`[0, BASE)`, the most significant limb is zero only in the single-limb zero,
and zero has `sign = true`. -/
def Inv (x : BigInteger) : Prop :=
  x.s ≠ [] ∧ (∀ l ∈ x.s, 0 ≤ l ∧ l < BASE) ∧ (x.s.getLast? = some 0 → x.s = [0]) ∧
    (x.s = [0] → x.sign = true)

instance (x : BigInteger) : Decidable (Inv x) := by
  unfold Inv
  infer_instance

/-! ## Auxiliary lemmas -/


theorem idx_of_lt (v : List Int) (i : Nat) (h : i < v.length) : idx v i = .ok (v.getD i 0) := by
  simp [idx, List.getElem?_eq_getElem h, List.getD_eq_getElem _ _ h]

theorem idx_of_le (v : List Int) (i : Nat) (h : v.length ≤ i) : idx v i = .error .outOfBounds := by
  simp [idx, List.getElem?_eq_none h]

theorem cmpLoop_ok (a b : List Int) (n : Nat) (ha : n ≤ a.length) (hb : n ≤ b.length) :
    ∃ r, cmpLoop a b n = .ok r ∧ (r = 0 ↔ ∀ k, k < n → a.getD k 0 = b.getD k 0) := by
  induction n with
  | zero => exact ⟨0, rfl, by simp⟩
  | succ n ih =>
    obtain ⟨r, hr, hiff⟩ := ih (by omega) (by omega)
    simp only [cmpLoop, idx_of_lt a n (by omega), idx_of_lt b n (by omega), bind, Except.bind]
    by_cases h1 : a.getD n 0 < b.getD n 0
    · refine ⟨-1, by simp only [h1, if_true], ?_⟩
      simp only [Int.reduceNeg, Int.neg_eq_zero, one_ne_zero, false_iff, not_forall]
      exact ⟨n, by omega, by omega⟩
    · by_cases h2 : a.getD n 0 > b.getD n 0
      · refine ⟨1, by simp only [h1, h2, if_true, if_false], ?_⟩
        simp only [one_ne_zero, false_iff, not_forall]
        exact ⟨n, by omega, by omega⟩
      · refine ⟨r, by simp only [h1, h2, if_false, hr], ?_⟩
        rw [hiff]
        constructor
        · intro h k hk
          by_cases hkn : k = n
          · subst hkn; omega
          · exact h k (by omega)
        · intro h k hk
          exact h k (by omega)

theorem cmp_ok (a b : List Int) : ∃ c, cmp a b = .ok c ∧ (c = false ↔ a = b) := by
  unfold cmp cmpReturned
  by_cases h1 : a.length < b.length
  · refine ⟨true, by simp [h1, bind, Except.bind], ?_⟩
    simp only [Bool.true_eq_false, false_iff]
    intro h; subst h; omega
  · by_cases h2 : a.length > b.length
    · refine ⟨true, by simp [h1, h2, bind, Except.bind], ?_⟩
      simp only [Bool.true_eq_false, false_iff]
      intro h; subst h; omega
    · have hlen : a.length = b.length := by omega
      obtain ⟨r, hr, hiff⟩ := cmpLoop_ok a b a.length le_rfl (by omega)
      refine ⟨decide (r ≠ 0), by simp [h1, h2, hr, bind, Except.bind], ?_⟩
      simp only [ne_eq, decide_not, Bool.not_eq_false', decide_eq_true_eq, hiff]
      constructor
      · intro h
        apply List.ext_getElem hlen
        intro k hk1 hk2
        have := h k hk1
        rwa [List.getD_eq_getElem _ _ hk1, List.getD_eq_getElem _ _ hk2] at this
      · intro h k _
        rw [h]

theorem cmp_self (a : List Int) : cmp a a = .ok false := by
  obtain ⟨c, hc, hiff⟩ := cmp_ok a a
  rw [hc, hiff.mpr rfl]

theorem cmp_of_ne (a b : List Int) (h : a ≠ b) : cmp a b = .ok true := by
  obtain ⟨c, hc, hiff⟩ := cmp_ok a b
  cases c with
  | true => exact hc
  | false => exact absurd (hiff.mp rfl) h

theorem value_nil : value [] = 0 := rfl

theorem value_cons (x : Int) (xs : List Int) : value (x :: xs) = x + BASE * value xs := rfl

theorem value_append (xs ys : List Int) :
    value (xs ++ ys) = value xs + BASE ^ xs.length * value ys := by
  induction xs with
  | nil => simp [value]
  | cons x xs ih =>
    have h : value (x :: xs ++ ys) = x + BASE * value (xs ++ ys) := rfl
    rw [h, ih]
    simp only [value, List.length_cons, pow_succ]
    ring

theorem value_drop (p : List Int) (i : Nat) :
    value (p.drop i) = p.getD i 0 + BASE * value (p.drop (i + 1)) := by
  by_cases h : i < p.length
  · rw [List.drop_eq_getElem_cons h, value, List.getD_eq_getElem _ _ h]
  · have h1 : p.drop i = [] := List.drop_eq_nil_of_le (by omega)
    have h2 : p.drop (i + 1) = [] := List.drop_eq_nil_of_le (by omega)
    have h3 : p.getD i 0 = 0 := List.getD_eq_default _ _ (by omega)
    rw [h1, h2, h3]; simp [value]

theorem getD_bounds (p : List Int) (hp : ∀ l ∈ p, 0 ≤ l ∧ l < BASE) (i : Nat) :
    0 ≤ p.getD i 0 ∧ p.getD i 0 < BASE := by
  by_cases h : i < p.length
  · rw [List.getD_eq_getElem _ _ h]
    exact hp _ (List.getElem_mem h)
  · rw [List.getD_eq_default _ _ (by omega)]
    simp [BASE]

theorem guarded_idx (p : List Int) (i : Nat) :
    (if i < p.length then idx p i else Except.ok 0) = Except.ok (p.getD i 0) := by
  by_cases h : i < p.length
  · rw [if_pos h, idx_of_lt p i h]
  · rw [if_neg h, List.getD_eq_default _ _ (by omega)]

theorem int32_ok (x : Int) (h1 : -2147483648 ≤ x) (h2 : x ≤ 2147483647) : int32 x = .ok x := by
  simp [int32, h1, h2]

theorem subLoop_step (p q : List Int) (hp : ∀ l ∈ p, 0 ≤ l ∧ l < BASE)
    (hq : ∀ l ∈ q, 0 ≤ l ∧ l < BASE) (fuel i : Nat) (c : Int) (nv : List Int)
    (hc : c = 0 ∨ c = -1) (hcond : i < p.length ∨ i < q.length ∨ c ≠ 0) :
    subLoop p q (fuel + 1) i i c nv =
      if q.getD i 0 - p.getD i 0 + c < 0 then
        subLoop p q fuel (i + 1) (i + 1) (-1) (nv ++ [q.getD i 0 - p.getD i 0 + c + BASE])
      else subLoop p q fuel (i + 1) (i + 1) 0 (nv ++ [q.getD i 0 - p.getD i 0 + c]) := by
  obtain ⟨hx0, hx1⟩ := getD_bounds p hp i
  obtain ⟨hy0, hy1⟩ := getD_bounds q hq i
  simp only [BASE] at hx1 hy1
  rw [subLoop, if_pos hcond, guarded_idx, guarded_idx]
  simp only [bind, Except.bind]
  rw [int32_ok _ (by omega) (by omega)]
  simp only []
  rw [int32_ok _ (by omega) (by omega)]
  simp only []
  by_cases hneg : q.getD i 0 - p.getD i 0 + c < 0
  · rw [if_pos hneg, if_pos hneg, int32_ok _ (by simp only [BASE]; omega)
      (by simp only [BASE]; omega)]
  · rw [if_neg hneg, if_neg hneg]

theorem subLoop_spec (p q : List Int) (hp : ∀ l ∈ p, 0 ≤ l ∧ l < BASE)
    (hq : ∀ l ∈ q, 0 ≤ l ∧ l < BASE) :
    ∀ (m i : Nat) (c : Int), m = max p.length q.length - i → (c = 0 ∨ c = -1) →
      0 ≤ value (q.drop i) - value (p.drop i) + c →
      ∃ out, (∀ fuel nv, m + 1 ≤ fuel → subLoop p q fuel i i c nv = .ok (nv ++ out)) ∧
        value out = value (q.drop i) - value (p.drop i) + c ∧
        (∀ l ∈ out, 0 ≤ l ∧ l < BASE) ∧ out.length = m := by
  intro m
  induction m with
  | zero =>
    intro i c hm hc hD
    have h1 : p.drop i = [] := List.drop_eq_nil_of_le (by omega)
    have h2 : q.drop i = [] := List.drop_eq_nil_of_le (by omega)
    rw [h1, h2] at hD ⊢
    rw [value_nil] at hD ⊢
    have hc0 : c = 0 := by omega
    refine ⟨[], ?_, by rw [value_nil]; omega, by simp, rfl⟩
    intro fuel nv hf
    obtain ⟨f, rfl⟩ : ∃ f, fuel = f + 1 := ⟨fuel - 1, by omega⟩
    rw [subLoop, if_neg (by omega), List.append_nil]
  | succ m ih =>
    intro i c hm hc hD
    have hcond : i < p.length ∨ i < q.length ∨ c ≠ 0 := by omega
    obtain ⟨hx0, hx1⟩ := getD_bounds p hp i
    obtain ⟨hy0, hy1⟩ := getD_bounds q hq i
    have hvp := value_drop p i
    have hvq := value_drop q i
    simp only [BASE] at hx1 hy1 hvp hvq
    by_cases hneg : q.getD i 0 - p.getD i 0 + c < 0
    · obtain ⟨out, ho, hv, hb, hl⟩ := ih (i + 1) (-1) (by omega) (Or.inr rfl) (by omega)
      refine ⟨(q.getD i 0 - p.getD i 0 + c + BASE) :: out, ?_, ?_, ?_, ?_⟩
      · intro fuel nv hf
        obtain ⟨f, rfl⟩ : ∃ f, fuel = f + 1 := ⟨fuel - 1, by omega⟩
        rw [subLoop_step p q hp hq f i c nv hc hcond, if_pos hneg, ho f _ (by omega)]
        simp
      · simp only [value, hv, BASE]; omega
      · intro l hl
        rcases List.mem_cons.mp hl with h | h
        · subst h; simp only [BASE]; omega
        · exact hb l h
      · simp only [List.length_cons, hl]
    · obtain ⟨out, ho, hv, hb, hl⟩ := ih (i + 1) 0 (by omega) (Or.inl rfl) (by omega)
      refine ⟨(q.getD i 0 - p.getD i 0 + c) :: out, ?_, ?_, ?_, ?_⟩
      · intro fuel nv hf
        obtain ⟨f, rfl⟩ : ∃ f, fuel = f + 1 := ⟨fuel - 1, by omega⟩
        rw [subLoop_step p q hp hq f i c nv hc hcond, if_neg hneg, ho f _ (by omega)]
        simp
      · simp only [value, hv, BASE]; omega
      · intro l hl
        rcases List.mem_cons.mp hl with h | h
        · subst h; simp only [BASE]; omega
        · exact hb l h
      · simp only [List.length_cons, hl]

theorem strip_concat (fuel : Nat) (xs : List Int) (x : Int) :
    strip (fuel + 1) (xs ++ [x]) = if x = 0 then strip fuel xs else .ok (xs ++ [x]) := by
  simp [strip]

theorem strip_spec (v : List Int) : value v ≠ 0 →
    ∃ w, (∀ fuel, v.length ≤ fuel → strip fuel v = .ok w) ∧ value w = value v ∧ w ≠ [] ∧
      w.getLast? ≠ some 0 ∧ (∀ l ∈ w, l ∈ v) := by
  induction v using List.reverseRecOn with
  | nil => intro h; exact absurd rfl h
  | append_singleton xs x ih =>
    intro hv
    by_cases hx : x = 0
    · subst hx
      have hval : value (xs ++ [0]) = value xs := by
        rw [value_append]; simp [value]
      rw [hval] at hv
      obtain ⟨w, hw, hwv, hne, hlast, hmem⟩ := ih hv
      refine ⟨w, ?_, by rw [hwv, hval], hne, hlast, ?_⟩
      · intro fuel hf
        rw [List.length_append, List.length_singleton] at hf
        obtain ⟨f, rfl⟩ : ∃ f, fuel = f + 1 := ⟨fuel - 1, by omega⟩
        rw [strip_concat, if_pos rfl, hw f (by omega)]
      · intro l hl
        exact List.mem_append_left _ (hmem l hl)
    · refine ⟨xs ++ [x], ?_, rfl, by simp, ?_, fun l hl => hl⟩
      · intro fuel hf
        rw [List.length_append, List.length_singleton] at hf
        obtain ⟨f, rfl⟩ : ∃ f, fuel = f + 1 := ⟨fuel - 1, by omega⟩
        rw [strip_concat, if_neg hx]
      · simp [hx]

theorem subLoop_diverges (p q : List Int) : ∀ (fuel i : Nat) (nv : List Int),
    p.length ≤ i → q.length ≤ i → subLoop p q fuel i i (-1) nv = .error .outOfFuel := by
  intro fuel
  induction fuel with
  | zero => intro i nv _ _; rfl
  | succ fuel ih =>
    intro i nv hp hq
    rw [subLoop, if_pos (by simp), guarded_idx, guarded_idx,
      List.getD_eq_default _ _ hp, List.getD_eq_default _ _ hq]
    simp only [bind, Except.bind, int32, BASE]
    simp only [sub_self, Int.reduceNeg, zero_add]
    norm_num
    exact ih (i + 1) _ (by omega) (by omega)

theorem value_nonneg (s : List Int) (hb : ∀ l ∈ s, 0 ≤ l ∧ l < BASE) : 0 ≤ value s := by
  induction s with
  | nil => simp [value]
  | cons x xs ih =>
    have h1 := (hb x (List.mem_cons_self _ _)).1
    have h2 := ih (fun l hl => hb l (List.mem_cons_of_mem _ hl))
    rw [value_cons]
    simp only [BASE]
    omega

theorem limbs_eq_digits (s : List Int) (hb : ∀ l ∈ s, 0 ≤ l ∧ l < BASE)
    (hlast : s.getLast? ≠ some 0) :
    s = (Nat.digits 100000000 (value s).toNat).map Int.ofNat := by
  induction s with
  | nil => simp [value]
  | cons x xs ih =>
    obtain ⟨hx0, hx1⟩ := hb x (List.mem_cons_self _ _)
    have hbx : ∀ l ∈ xs, 0 ≤ l ∧ l < BASE := fun l hl => hb l (List.mem_cons_of_mem _ hl)
    have hv := value_nonneg xs hbx
    simp only [BASE] at hx1
    have hval : (value (x :: xs)).toNat = x.toNat + 100000000 * (value xs).toNat := by
      rw [value_cons]
      simp only [BASE]
      omega
    have hxs : xs.getLast? ≠ some 0 := by
      cases xs with
      | nil => simp
      | cons y ys => rwa [List.getLast?_cons_cons] at hlast
    have ih2 := ih hbx hxs
    have hor : x.toNat ≠ 0 ∨ (value xs).toNat ≠ 0 := by
      by_cases hnil : xs = []
      · left
        subst hnil
        simp only [List.getLast?_singleton, ne_eq, Option.some.injEq] at hlast
        omega
      · right
        intro h0
        rw [h0] at ih2
        simp at ih2
        exact hnil ih2
    rw [hval, Nat.digits_add 100000000 (by norm_num) x.toNat (value xs).toNat (by omega) hor,
      List.map_cons, ← ih2]
    congr 1
    simp only [Int.ofNat_eq_coe]
    omega

theorem isdigit_iff (c : Char) : isdigit c = true ↔ 48 ≤ c.toNat ∧ c.toNat ≤ 57 := by
  simp only [isdigit, Bool.and_eq_true, decide_eq_true_eq]
  exact Iff.rfl

theorem toNat_ne_of_ne (c d : Char) (h : c ≠ d) : c.toNat ≠ d.toNat := by
  intro heq
  apply h
  rw [← Char.ofNat_toNat c, ← Char.ofNat_toNat d, heq]

theorem isspace_of_isdigit (c : Char) (h : isdigit c = true) : isspace c = false := by
  rw [isdigit_iff] at h
  simp only [isspace, Bool.or_eq_false_iff, decide_eq_false_iff_not]
  refine ⟨⟨⟨⟨⟨?_, ?_⟩, ?_⟩, ?_⟩, ?_⟩, ?_⟩ <;>
  · intro hc
    rw [hc] at h
    revert h
    decide

theorem not_sign_of_isdigit (c : Char) (h : isdigit c = true) : c ≠ '-' ∧ c ≠ '+' := by
  rw [isdigit_iff] at h
  constructor <;>
  · intro hc
    rw [hc] at h
    revert h
    decide

theorem digitsFold (ds : List Char) : ∀ acc : Nat,
    ds.foldl (fun acc c => 10 * acc + (c.toNat - 48)) acc =
      acc * 10 ^ ds.length + digitsValue ds := by
  induction ds with
  | nil => intro acc; simp [digitsValue]
  | cons d ds ih =>
    intro acc
    simp only [digitsValue, List.foldl_cons, List.length_cons]
    rw [ih, ih (10 * 0 + (d.toNat - 48))]
    simp only [digitsValue]
    ring

theorem digitsValue_nil : digitsValue [] = 0 := rfl

theorem digitsValue_cons (d : Char) (ds : List Char) :
    digitsValue (d :: ds) = (d.toNat - 48) * 10 ^ ds.length + digitsValue ds := by
  have h := digitsFold ds (10 * 0 + (d.toNat - 48))
  simp only [mul_zero, zero_add] at h
  simp only [digitsValue, List.foldl_cons, mul_zero, zero_add]
  exact h

theorem digitsValue_append (xs ys : List Char) :
    digitsValue (xs ++ ys) = digitsValue xs * 10 ^ ys.length + digitsValue ys := by
  simp only [digitsValue, List.foldl_append]
  rw [digitsFold]
  simp only [digitsValue]

theorem digitsValue_lt (ds : List Char) (h : ∀ c ∈ ds, isdigit c = true) :
    digitsValue ds < 10 ^ ds.length := by
  induction ds with
  | nil => simp [digitsValue]
  | cons d ds ih =>
    have hd := (isdigit_iff d).mp (h d (List.mem_cons_self _ _))
    have := ih (fun c hc => h c (List.mem_cons_of_mem _ hc))
    rw [digitsValue_cons, List.length_cons, pow_succ]
    have h9 : d.toNat - 48 ≤ 9 := by omega
    nlinarith [Nat.mul_le_mul_right (10 ^ ds.length) h9]

theorem digitsValue_zeros (zs : List Char) (h : ∀ c ∈ zs, c = '0') : digitsValue zs = 0 := by
  induction zs with
  | nil => rfl
  | cons d ds ih =>
    rw [digitsValue_cons, ih (fun c hc => h c (List.mem_cons_of_mem _ hc)),
      h d (List.mem_cons_self _ _)]
    simp

theorem digitsValue_pos (d : Char) (ds : List Char) (hd : isdigit d = true) (hne : d ≠ '0') :
    0 < digitsValue (d :: ds) := by
  have h1 := (isdigit_iff d).mp hd
  have h2 : d.toNat ≠ 48 := toNat_ne_of_ne d '0' hne
  rw [digitsValue_cons]
  have h3 : 1 ≤ d.toNat - 48 := by omega
  have h4 : 0 < 10 ^ ds.length := by positivity
  nlinarith [Nat.mul_le_mul_right (10 ^ ds.length) h3]

theorem stoi_digits (ds : List Char) (hne : ds ≠ []) (h : ∀ c ∈ ds, isdigit c = true)
    (hlen : ds.length ≤ 8) : stoi ds = .ok (digitsValue ds : Int) := by
  obtain ⟨d, rest, rfl⟩ := List.exists_cons_of_ne_nil hne
  have hd := h d (List.mem_cons_self _ _)
  have hsp := isspace_of_isdigit d hd
  obtain ⟨hm, hp⟩ := not_sign_of_isdigit d hd
  have hlt := digitsValue_lt (d :: rest) h
  have hpow : 10 ^ (d :: rest).length ≤ 10 ^ 8 := Nat.pow_le_pow_right (by norm_num) hlen
  have htw : List.takeWhile isdigit (d :: rest) = d :: rest :=
    List.takeWhile_eq_self_iff.mpr h
  have hdw : List.dropWhile isspace (d :: rest) = d :: rest :=
    List.dropWhile_cons_of_neg (by simp [hsp])
  unfold stoi
  simp only [hdw, List.head?_cons, Option.some.injEq, hm, hp, or_self, if_false, htw]
  rw [if_neg (by simp)]
  rw [if_pos (by constructor <;> omega)]

theorem charAt_append (pre rest : List Char) (c : Char) :
    charAt (pre ++ c :: rest) pre.length = .ok c := by
  have h : (pre ++ c :: rest)[pre.length]? = some c := by
    rw [List.getElem?_append_right (le_refl _)]
    simp
  simp only [charAt, h]

theorem skipZeros_spec (zs rest : List Char) (c : Char) (hz : ∀ d ∈ zs, d = '0')
    (hc : c ≠ '0') : ∀ (pre : List Char) (fuel : Nat), zs.length + 1 ≤ fuel →
      skipZeros (pre ++ zs ++ c :: rest) fuel pre.length = .ok (pre.length + zs.length) := by
  induction zs with
  | nil =>
    intro pre fuel hf
    obtain ⟨f, rfl⟩ : ∃ f, fuel = f + 1 := ⟨fuel - 1, by omega⟩
    rw [List.append_nil, skipZeros, charAt_append]
    simp only [bind, Except.bind, if_neg hc, List.length_nil, add_zero]
  | cons z zs ih =>
    intro pre fuel hf
    rw [List.length_cons] at hf
    obtain ⟨f, rfl⟩ : ∃ f, fuel = f + 1 := ⟨fuel - 1, by omega⟩
    have hz0 : z = '0' := hz z (List.mem_cons_self _ _)
    have hstr : pre ++ z :: zs ++ c :: rest = pre ++ z :: (zs ++ c :: rest) := by simp
    have hstr2 : pre ++ z :: zs ++ c :: rest = (pre ++ [z]) ++ zs ++ c :: rest := by simp
    rw [skipZeros, hstr, charAt_append]
    simp only [bind, Except.bind, if_pos hz0]
    rw [← hstr, hstr2]
    have := ih (fun d hd => hz d (List.mem_cons_of_mem _ hd)) (pre ++ [z]) f (by omega)
    rw [List.length_append, List.length_singleton] at this
    rw [this, List.length_cons]
    congr 1
    omega

theorem parseLoop_exit (str : List Char) (start_pos fuel : Nat) (r p : Int) (acc : List Int)
    (h : r ≤ start_pos) : parseLoop str start_pos (fuel + 1) r p acc = .ok acc := by
  rw [parseLoop, if_neg (by omega)]

theorem parseLoop_step (str chunk : List Char) (start_pos fuel : Nat) (r p limb : Int)
    (acc : List Int) (h : r > start_pos)
    (hsub : substr str p.toNat (r - p).toNat = .ok chunk) (hstoi : stoi chunk = .ok limb) :
    parseLoop str start_pos (fuel + 1) r p acc =
      parseLoop str start_pos fuel (r - 8) (max (start_pos : Int) (r - 8 - 8)) (acc ++ [limb]) := by
  rw [parseLoop, if_pos h, hsub]
  simp only [bind, Except.bind, hstoi, WIDTH]

theorem substr_append (pre body : List Char) (i n : Nat) :
    substr (pre ++ body) (pre.length + i) n = .ok ((body.drop i).take n) ∨
      body.length < i := by
  by_cases h : body.length < i
  · exact Or.inr h
  · left
    rw [substr, if_neg (by rw [List.length_append]; omega), List.drop_append]

theorem parseLoop_spec (pre body : List Char) (hb : ∀ c ∈ body, isdigit c = true)
    (hhead : ∀ c, body.head? = some c → c ≠ '0') :
    ∀ (k : Nat), k ≤ body.length → ∀ (r p : Int), r = (pre.length : Int) + k →
      p = max (pre.length : Int) (r - 8) →
      ∃ out, (∀ fuel acc, k + 1 ≤ fuel →
          parseLoop (pre ++ body) pre.length fuel r p acc = .ok (acc ++ out)) ∧
        value out = (digitsValue (body.take k) : Int) ∧
        (∀ l ∈ out, 0 ≤ l ∧ l < BASE) ∧ (0 < k → out ≠ [] ∧ out.getLast? ≠ some 0) := by
  intro k
  induction k using Nat.strong_induction_on with
  | _ k ih =>
    intro hk r p hr hp
    by_cases hk0 : k = 0
    · subst hk0
      refine ⟨[], ?_, by simp [value, digitsValue], by simp, by omega⟩
      intro fuel acc hf
      obtain ⟨f, rfl⟩ : ∃ f, fuel = f + 1 := ⟨fuel - 1, by omega⟩
      rw [parseLoop_exit _ _ _ _ _ _ (by omega), List.append_nil]
    · by_cases hk8 : k ≤ 8
      · -- the most significant group: the first `k` digits
        have hchunk_ne : body.take k ≠ [] := by
          intro h
          have h1 : (body.take k).length = k := by rw [List.length_take]; omega
          rw [h] at h1
          exact hk0 h1.symm
        have hchunk_d : ∀ c ∈ body.take k, isdigit c = true :=
          fun c hc => hb c (List.mem_of_mem_take hc)
        have hlen : (body.take k).length ≤ 8 := by rw [List.length_take]; omega
        have hstoi := stoi_digits _ hchunk_ne hchunk_d hlen
        have hsub : substr (pre ++ body) p.toNat (r - p).toNat = .ok (body.take k) := by
          have hp1 : p.toNat = pre.length + 0 := by omega
          have hp2 : (r - p).toNat = k := by omega
          rw [hp1, hp2]
          rcases substr_append pre body 0 k with h | h
          · rw [h, List.drop_zero]
          · omega
        obtain ⟨d, rest, hbody⟩ := List.exists_cons_of_ne_nil
          (fun h : body = [] => hchunk_ne (by rw [h]; simp))
        have hd0 : d ≠ '0' := hhead d (by rw [hbody]; rfl)
        have hpos : 0 < digitsValue (body.take k) := by
          obtain ⟨k1, rfl⟩ : ∃ k1, k = k1 + 1 := ⟨k - 1, by omega⟩
          rw [hbody, List.take_succ_cons]
          exact digitsValue_pos d _ (hb d (by rw [hbody]; exact List.mem_cons_self _ _)) hd0
        have hlt := digitsValue_lt _ hchunk_d
        have hpow : 10 ^ (body.take k).length ≤ 10 ^ 8 :=
          Nat.pow_le_pow_right (by norm_num) hlen
        refine ⟨[(digitsValue (body.take k) : Int)], ?_, by simp [value], ?_, ?_⟩
        · intro fuel acc hf
          obtain ⟨f, rfl⟩ : ∃ f, fuel = f + 1 := ⟨fuel - 1, by omega⟩
          obtain ⟨f, rfl⟩ : ∃ g, f = g + 1 := ⟨f - 1, by omega⟩
          rw [parseLoop_step _ _ _ _ _ _ _ _ (by omega) hsub hstoi,
            parseLoop_exit _ _ _ _ _ _ (by omega)]
        · intro l hl
          rw [List.mem_singleton] at hl
          subst hl
          simp only [BASE]
          omega
        · intro _
          refine ⟨by simp, ?_⟩
          simp only [List.getLast?_singleton, ne_eq, Option.some.injEq]
          omega
      · -- a full group of eight digits, then the rest
        have hk8 : 8 < k := by omega
        have hchunk_len : ((body.drop (k - 8)).take 8).length = 8 := by
          rw [List.length_take, List.length_drop]; omega
        have hchunk_ne : (body.drop (k - 8)).take 8 ≠ [] := by
          intro h
          rw [h] at hchunk_len
          simp at hchunk_len
        have hchunk_d : ∀ c ∈ (body.drop (k - 8)).take 8, isdigit c = true :=
          fun c hc => hb c (List.mem_of_mem_drop (List.mem_of_mem_take hc))
        have hstoi := stoi_digits _ hchunk_ne hchunk_d (by omega)
        have hsub : substr (pre ++ body) p.toNat (r - p).toNat =
            .ok ((body.drop (k - 8)).take 8) := by
          have hp1 : p.toNat = pre.length + (k - 8) := by omega
          have hp2 : (r - p).toNat = 8 := by omega
          rw [hp1, hp2]
          rcases substr_append pre body (k - 8) 8 with h | h
          · exact h
          · omega
        obtain ⟨out, ho, hv, hbnd, hlast⟩ := ih (k - 8) (by omega) (by omega) (r - 8)
          (max (pre.length : Int) (r - 8 - 8)) (by omega) rfl
        have hlt := digitsValue_lt _ hchunk_d
        rw [hchunk_len] at hlt
        have hsplit : body.take k = body.take (k - 8) ++ (body.drop (k - 8)).take 8 := by
          have : k = (k - 8) + 8 := by omega
          conv_lhs => rw [this]
          exact List.take_add _ _ _
        refine ⟨(digitsValue ((body.drop (k - 8)).take 8) : Int) :: out, ?_, ?_, ?_, ?_⟩
        · intro fuel acc hf
          obtain ⟨f, rfl⟩ : ∃ f, fuel = f + 1 := ⟨fuel - 1, by omega⟩
          rw [parseLoop_step _ _ _ _ _ _ _ _ (by omega) hsub hstoi, ho f _ (by omega)]
          simp
        · rw [value_cons, hv, hsplit, digitsValue_append, hchunk_len]
          simp only [BASE]
          push_cast
          ring
        · intro l hl
          rcases List.mem_cons.mp hl with h | h
          · subst h
            simp only [BASE]
            omega
          · exact hbnd l h
        · intro _
          obtain ⟨hne, hl⟩ := hlast (by omega)
          refine ⟨by simp, ?_⟩
          obtain ⟨x, xs, rfl⟩ := List.exists_cons_of_ne_nil hne
          rw [List.getLast?_cons_cons]
          exact hl

theorem charAt_cons_zero (c : Char) (tl : List Char) : charAt (c :: tl) 0 = .ok c := by
  simp [charAt]

theorem split_zeros (ds : List Char) (hnz : ∃ c ∈ ds, c ≠ '0') :
    ∃ zs c rest, ds = zs ++ c :: rest ∧ (∀ d ∈ zs, d = '0') ∧ c ≠ '0' := by
  induction ds with
  | nil =>
    obtain ⟨c, hc, _⟩ := hnz
    exact absurd hc (List.not_mem_nil c)
  | cons d ds ih =>
    by_cases hd : d = '0'
    · obtain ⟨c, hc, hc0⟩ := hnz
      have hmem : c ∈ ds := by
        rcases List.mem_cons.mp hc with h | h
        · exact absurd (h.trans hd) hc0
        · exact h
      obtain ⟨zs, e, rest, hds, hz, he⟩ := ih ⟨c, hmem, hc0⟩
      refine ⟨d :: zs, e, rest, by rw [hds]; rfl, ?_, he⟩
      intro x hx
      rcases List.mem_cons.mp hx with h | h
      · exact h.trans hd
      · exact hz x h
    · exact ⟨[], d, ds, rfl, by simp, hd⟩

theorem scan_spec (pre zs rest : List Char) (c : Char) (hz : ∀ d ∈ zs, d = '0')
    (hc : c ≠ '0') (hdig : ∀ d ∈ c :: rest, isdigit d = true) :
    ∃ out, (∀ fuel, (pre ++ zs ++ c :: rest).length + 1 ≤ fuel →
        skipZeros (pre ++ zs ++ c :: rest) fuel pre.length = .ok (pre.length + zs.length) ∧
        parseLoop (pre ++ zs ++ c :: rest) (pre.length + zs.length) fuel
          ((pre ++ zs ++ c :: rest).length : Int)
          (max ((pre.length + zs.length : Nat) : Int)
            (((pre ++ zs ++ c :: rest).length : Int) - WIDTH)) [] = .ok out) ∧
      value out = (digitsValue (c :: rest) : Int) ∧ (∀ l ∈ out, 0 ≤ l ∧ l < BASE) ∧
      out ≠ [] ∧ out.getLast? ≠ some 0 := by
  obtain ⟨out, ho, hv, hb, hl⟩ := parseLoop_spec (pre ++ zs) (c :: rest) hdig
    (by intro d hd; simp only [List.head?_cons, Option.some.injEq] at hd; rw [← hd]; exact hc)
    (c :: rest).length le_rfl
    ((pre ++ zs ++ c :: rest).length : Int)
    (max ((pre.length + zs.length : Nat) : Int) (((pre ++ zs ++ c :: rest).length : Int) - 8))
    (by simp only [List.length_append, List.length_cons]; push_cast; ring)
    (by simp only [List.length_append])
  rw [List.take_length] at hv
  obtain ⟨hne, hlast⟩ := hl (by simp)
  refine ⟨out, ?_, hv, hb, hne, hlast⟩
  intro fuel hf
  simp only [List.length_append, List.length_cons] at hf
  refine ⟨skipZeros_spec zs rest c hz hc pre fuel (by omega), ?_⟩
  have := ho fuel [] (by simp only [List.length_cons]; omega)
  rw [List.length_append] at this
  simpa only [WIDTH, List.nil_append] using this

theorem subLoop_negative (p q : List Int) (hp : ∀ l ∈ p, 0 ≤ l ∧ l < BASE)
    (hq : ∀ l ∈ q, 0 ≤ l ∧ l < BASE) :
    ∀ (m i : Nat) (c : Int), m = max p.length q.length - i → (c = 0 ∨ c = -1) →
      value (q.drop i) - value (p.drop i) + c < 0 →
      ∀ fuel nv, subLoop p q fuel i i c nv = .error .outOfFuel := by
  intro m
  induction m with
  | zero =>
    intro i c hm hc hD fuel nv
    have h1 : p.drop i = [] := List.drop_eq_nil_of_le (by omega)
    have h2 : q.drop i = [] := List.drop_eq_nil_of_le (by omega)
    rw [h1, h2, value_nil] at hD
    have hc1 : c = -1 := by omega
    subst hc1
    exact subLoop_diverges p q fuel i nv (by omega) (by omega)
  | succ m ih =>
    intro i c hm hc hD fuel nv
    cases fuel with
    | zero => rfl
    | succ f =>
      have hcond : i < p.length ∨ i < q.length ∨ c ≠ 0 := by omega
      obtain ⟨hx0, hx1⟩ := getD_bounds p hp i
      obtain ⟨hy0, hy1⟩ := getD_bounds q hq i
      have hvp := value_drop p i
      have hvq := value_drop q i
      simp only [BASE] at hx1 hy1 hvp hvq
      rw [subLoop_step p q hp hq f i c nv hc hcond]
      by_cases hneg : q.getD i 0 - p.getD i 0 + c < 0
      · rw [if_pos hneg]
        exact ih (i + 1) (-1) (by omega) (Or.inr rfl) (by omega) f _
      · rw [if_neg hneg]
        exact ih (i + 1) 0 (by omega) (Or.inl rfl) (by omega) f _

/-- Whenever the signs differ and `|a| > |b|`, `operator+` returns no value:
the loop of the branch commented `a < b` never ends. -/
theorem add_diff_sign_gt_diverges (a b : BigInteger) (ha : Inv a) (hb : Inv b)
    (hsign : a.sign ≠ b.sign) (hgt : value b.s < value a.s) (fuel : Nat) :
    add fuel a b = .error .outOfFuel := by
  obtain ⟨-, hab, -, -⟩ := ha
  obtain ⟨-, hbb, -, -⟩ := hb
  have hne : a.s ≠ b.s := by
    intro h; rw [h] at hgt; exact lt_irrefl _ hgt
  have h := subLoop_negative a.s b.s hab hbb (max a.s.length b.s.length) 0 0 rfl (Or.inl rfl)
    (by simp only [List.drop_zero]; omega) fuel []
  simp only [add, if_neg hsign, cmp_of_ne _ _ hne, bind, Except.bind, h]
  simp

/-! ### Strings that are not numerals -/

theorem stoi_digits_then_other (ds g : List Char) (c : Char) (hne : ds ≠ [])
    (h : ∀ d ∈ ds, isdigit d = true) (hc : isdigit c = false) (hlen : ds.length ≤ 8) :
    stoi (ds ++ c :: g) = .ok (digitsValue ds : Int) := by
  obtain ⟨d, rest, rfl⟩ := List.exists_cons_of_ne_nil hne
  have hd := h d (List.mem_cons_self _ _)
  have hsp := isspace_of_isdigit d hd
  obtain ⟨hm, hp⟩ := not_sign_of_isdigit d hd
  have hlt := digitsValue_lt (d :: rest) h
  have hpow : 10 ^ (d :: rest).length ≤ 10 ^ 8 := Nat.pow_le_pow_right (by norm_num) hlen
  have htw : List.takeWhile isdigit (d :: rest ++ c :: g) = d :: rest := by
    rw [List.takeWhile_append_of_pos h, List.takeWhile_cons_of_neg (by simp [hc]),
      List.append_nil]
  have hdw : List.dropWhile isspace (d :: rest ++ c :: g) = d :: rest ++ c :: g :=
    List.dropWhile_cons_of_neg (by simp [hsp])
  have hhead : (d :: rest ++ c :: g).head? = some d := rfl
  unfold stoi
  simp only [hdw, hhead, Option.some.injEq, hm, hp, or_self, if_false, htw]
  rw [if_neg (by simp), if_pos (by constructor <;> omega)]

/-! ### The equal-sign branch of `operator+` -/

theorem addLoop_step (a b : List Int) (ha : ∀ l ∈ a, 0 ≤ l ∧ l < BASE)
    (hb : ∀ l ∈ b, 0 ≤ l ∧ l < BASE) (fuel i : Nat) (nv : List Int)
    (hi : i < max a.length b.length) :
    addLoop a b (fuel + 1) i i 0 nv =
      addLoop a b fuel (i + 1) (i + 1) 0 (nv ++ [(a.getD i 0 + b.getD i 0) % BASE]) := by
  obtain ⟨hx0, hx1⟩ := getD_bounds a ha i
  obtain ⟨hy0, hy1⟩ := getD_bounds b hb i
  simp only [BASE] at hx1 hy1
  rw [addLoop, if_pos (by omega), guarded_idx, guarded_idx]
  simp only [bind, Except.bind]
  rw [int32_ok _ (by omega) (by omega)]
  simp only []
  rw [int32_ok _ (by omega) (by omega)]
  simp only [add_zero]
  rw [Int.tmod_eq_emod (by omega) (by simp [BASE])]
  rfl

theorem addLoop_exit (a b : List Int) (fuel i : Nat) (nv : List Int)
    (hi : max a.length b.length ≤ i) : addLoop a b (fuel + 1) i i 0 nv = .ok nv := by
  rw [addLoop, if_neg (by omega)]

theorem addLoop_spec (a b : List Int) (ha : ∀ l ∈ a, 0 ≤ l ∧ l < BASE)
    (hb : ∀ l ∈ b, 0 ≤ l ∧ l < BASE) :
    ∀ (m i fuel : Nat) (nv : List Int), m = max a.length b.length - i → m + 1 ≤ fuel →
      addLoop a b fuel i i 0 nv =
        .ok (nv ++ (List.range' i m).map (fun k => (a.getD k 0 + b.getD k 0) % BASE)) := by
  intro m
  induction m with
  | zero =>
    intro i fuel nv hm hf
    obtain ⟨f, rfl⟩ : ∃ f, fuel = f + 1 := ⟨fuel - 1, by omega⟩
    rw [addLoop_exit a b f i nv (by omega)]
    simp
  | succ m ih =>
    intro i fuel nv hm hf
    obtain ⟨f, rfl⟩ : ∃ f, fuel = f + 1 := ⟨fuel - 1, by omega⟩
    rw [addLoop_step a b ha hb f i nv (by omega), ih (i + 1) f _ (by omega) (by omega)]
    simp [List.range'_succ]

theorem value_pointwise_sum (a b : List Int) (ha : ∀ l ∈ a, 0 ≤ l ∧ l < BASE)
    (hb : ∀ l ∈ b, 0 ≤ l ∧ l < BASE) (h : ∀ k, a.getD k 0 + b.getD k 0 < BASE) :
    ∀ (m i : Nat), m = max a.length b.length - i →
      value ((List.range' i m).map (fun k => (a.getD k 0 + b.getD k 0) % BASE)) =
        value (a.drop i) + value (b.drop i) := by
  intro m
  induction m with
  | zero =>
    intro i hm
    have h1 : a.drop i = [] := List.drop_eq_nil_of_le (by omega)
    have h2 : b.drop i = [] := List.drop_eq_nil_of_le (by omega)
    rw [h1, h2]
    simp [value]
  | succ m ih =>
    intro i hm
    obtain ⟨hx0, -⟩ := getD_bounds a ha i
    obtain ⟨hy0, -⟩ := getD_bounds b hb i
    have hk := h i
    rw [List.range'_succ, List.map_cons, value_cons, ih (i + 1) (by omega), value_drop a i,
      value_drop b i, Int.emod_eq_of_lt (by omega) hk]
    ring

/-! ### The steps of `operator*` -/

theorem getD_set_eq (v : List Int) (k : Nat) (x : Int) (hk : k < v.length) :
    (v.set k x).getD k 0 = x := by
  rw [List.getD_eq_getElem?_getD, List.getElem?_set, if_pos rfl, if_pos hk]
  rfl

theorem getD_set_ne (v : List Int) (k m : Nat) (x : Int) (h : k ≠ m) :
    (v.set k x).getD m 0 = v.getD m 0 := by
  rw [List.getD_eq_getElem?_getD, List.getElem?_set, if_neg h, List.getD_eq_getElem?_getD]

theorem set_getD_self (v : List Int) : ∀ (k : Nat), v.set k (v.getD k 0) = v := by
  induction v with
  | nil => intro k; rfl
  | cons x xs ih =>
    intro k
    cases k with
    | zero => rfl
    | succ k =>
      rw [List.set_cons_succ]
      have : (x :: xs).getD (k + 1) 0 = xs.getD k 0 := rfl
      rw [this, ih k]

theorem mem_set_bounds (v : List Int) (k : Nat) (x : Int) (hv : ∀ l ∈ v, 0 ≤ l ∧ l < BASE)
    (hx : 0 ≤ x ∧ x < BASE) : ∀ l ∈ v.set k x, 0 ≤ l ∧ l < BASE := by
  intro l hl
  rcases List.mem_or_eq_of_mem_set hl with h | h
  · exact hv l h
  · rw [h]; exact hx

theorem toInt32_of_range (x : Int) (h1 : -2147483648 ≤ x) (h2 : x ≤ 2147483647) :
    toInt32 x = x := by
  unfold toInt32
  omega

theorem limb_product_bounds (x y : Int) (hx : 0 ≤ x ∧ x < BASE) (hy : 0 ≤ y ∧ y < BASE) :
    0 ≤ x * y ∧ x * y ≤ 9999999800000001 := by
  obtain ⟨hx0, hx1⟩ := hx
  obtain ⟨hy0, hy1⟩ := hy
  simp only [BASE] at hx1 hy1
  constructor
  · positivity
  · nlinarith

/-- The carry loop of `operator*` for a carry in `[0, BASE)`: at most the
limb at `pos + 1` is written. -/
theorem carryLoop_closed (pos fuel : Nat) (carry : Int) (nv : List Int)
    (hv : ∀ l ∈ nv, 0 ≤ l ∧ l < BASE) (hc : 0 ≤ carry ∧ carry < BASE)
    (hpos : carry ≠ 0 → pos + 1 < nv.length) :
    carryLoop pos (fuel + 2) 1 carry nv =
      .ok (nv.set (pos + 1) ((nv.getD (pos + 1) 0 + carry) % BASE)) := by
  obtain ⟨hc0, hc1⟩ := hc
  obtain ⟨hg0, hg1⟩ := getD_bounds nv hv (pos + 1)
  simp only [BASE] at hc1 hg1
  by_cases hz : carry = 0
  · subst hz
    rw [carryLoop, if_neg (by simp), add_zero, Int.emod_eq_of_lt hg0 (by simp only [BASE]; omega),
      set_getD_self]
  · have hp := hpos hz
    rw [carryLoop, if_pos hz, idx_of_lt nv (pos + 1) hp]
    simp only [bind, Except.bind]
    rw [toInt32_of_range _ (by omega) (by omega), Int.tmod_eq_emod (by omega) (by simp [BASE]),
      Int.tdiv_eq_ediv hc0 (by simp [BASE])]
    have hdiv : carry / BASE = 0 := by simp only [BASE]; omega
    rw [hdiv, carryLoop, if_neg (by simp)]

/-- Closed form of one step `(i, j)` of `operator*` on limbs in `[0, BASE)`. -/
theorem mulStep_closed (fuel : Nat) (a b nv : List Int) (i j : Nat)
    (ha : ∀ l ∈ a, 0 ≤ l ∧ l < BASE) (hb : ∀ l ∈ b, 0 ≤ l ∧ l < BASE)
    (hv : ∀ l ∈ nv, 0 ≤ l ∧ l < BASE) (hi : i < a.length) (hj : j < b.length)
    (hlen : i + j + 1 < nv.length) :
    mulStep (fuel + 2) a b i j nv =
      .ok ((nv.set (i + j) ((nv.getD (i + j) 0 + a.getD i 0 * b.getD j 0 % BASE) % BASE)).set
        (i + j + 1)
        ((nv.getD (i + j + 1) 0 +
          ((nv.getD (i + j) 0 + a.getD i 0 * b.getD j 0 % BASE) / BASE +
            a.getD i 0 * b.getD j 0 / BASE)) % BASE)) := by
  obtain ⟨hP0, hP1⟩ := limb_product_bounds _ _ (getD_bounds a ha i) (getD_bounds b hb j)
  obtain ⟨hg0, hg1⟩ := getD_bounds nv hv (i + j)
  simp only [BASE] at hg1
  generalize hP : a.getD i 0 * b.getD j 0 = P at hP0 hP1 ⊢
  have hB : (0 : Int) ≤ BASE := by simp [BASE]
  unfold mulStep
  rw [idx_of_lt a i hi, idx_of_lt b j hj, idx_of_lt nv (i + j) (by omega)]
  simp only [bind, Except.bind, hP]
  rw [Int.tmod_eq_emod hP0 hB, Int.tdiv_eq_ediv hP0 hB]
  have hs0 : 0 ≤ nv.getD (i + j) 0 + P % BASE := by simp only [BASE]; omega
  have hs1 : nv.getD (i + j) 0 + P % BASE ≤ 2147483647 := by simp only [BASE]; omega
  rw [toInt32_of_range _ (by omega) hs1, Int.tmod_eq_emod hs0 hB, Int.tdiv_eq_ediv hs0 hB]
  have hset : ∀ l ∈ nv.set (i + j) ((nv.getD (i + j) 0 + P % BASE) % BASE),
      0 ≤ l ∧ l < BASE :=
    mem_set_bounds nv _ _ hv (by simp only [BASE]; omega)
  rw [carryLoop_closed (i + j) fuel _ _ hset (by simp only [BASE] at hs0 hs1 ⊢; omega)
    (by intro _; rw [List.length_set]; exact hlen),
    getD_set_ne _ _ _ _ (by omega)]

theorem foldlM_range_inv {σ : Type} (f : σ → Nat → Except Fault σ) (Q : Nat → σ → Prop) :
    ∀ (n : Nat) (v0 : σ), Q 0 v0 →
      (∀ j v, j < n → Q j v → ∃ w, f v j = .ok w ∧ Q (j + 1) w) →
      ∃ w, (List.range n).foldlM f v0 = .ok w ∧ Q n w := by
  intro n
  induction n with
  | zero => intro v0 h0 _; exact ⟨v0, rfl, h0⟩
  | succ n ih =>
    intro v0 h0 hstep
    obtain ⟨w, hw, hq⟩ := ih v0 h0 (fun j v hj hv => hstep j v (by omega) hv)
    obtain ⟨w2, hw2, hq2⟩ := hstep n w (by omega) hq
    refine ⟨w2, ?_, hq2⟩
    rw [List.range_succ, List.foldlM_append, hw]
    simp only [bind, Except.bind, List.foldlM_cons, List.foldlM_nil, hw2]
    rfl

theorem mulStep_range (fuel : Nat) (a b nv : List Int) (i j : Nat)
    (ha : ∀ l ∈ a, 0 ≤ l ∧ l < BASE) (hb : ∀ l ∈ b, 0 ≤ l ∧ l < BASE)
    (hv : ∀ l ∈ nv, 0 ≤ l ∧ l < BASE) (hi : i < a.length) (hj : j < b.length)
    (hlen : nv.length = a.length + b.length) (hf : 2 ≤ fuel) :
    ∃ w, mulStep fuel a b i j nv = .ok w ∧ w.length = a.length + b.length ∧
      ∀ l ∈ w, 0 ≤ l ∧ l < BASE := by
  obtain ⟨f, rfl⟩ : ∃ f, fuel = f + 2 := ⟨fuel - 2, by omega⟩
  have hB : (0 : Int) < BASE := by simp [BASE]
  refine ⟨_, mulStep_closed f a b nv i j ha hb hv hi hj (by omega), ?_, ?_⟩
  · rw [List.length_set, List.length_set, hlen]
  · apply mem_set_bounds
    · apply mem_set_bounds _ _ _ hv
      exact ⟨Int.emod_nonneg _ (ne_of_gt hB), Int.emod_lt_of_pos _ hB⟩
    · exact ⟨Int.emod_nonneg _ (ne_of_gt hB), Int.emod_lt_of_pos _ hB⟩

theorem mulLoop_range (fuel : Nat) (a b : List Int)
    (ha : ∀ l ∈ a, 0 ≤ l ∧ l < BASE) (hb : ∀ l ∈ b, 0 ≤ l ∧ l < BASE) (hf : 2 ≤ fuel) :
    ∃ acc, mulLoop fuel a b (List.replicate (a.length + b.length) 0) = .ok acc ∧
      acc.length = a.length + b.length ∧ ∀ l ∈ acc, 0 ≤ l ∧ l < BASE := by
  unfold mulLoop
  apply foldlM_range_inv (fun v i => mulRow fuel a b i v)
    (fun _ v => v.length = a.length + b.length ∧ ∀ l ∈ v, 0 ≤ l ∧ l < BASE)
  · refine ⟨by simp, ?_⟩
    intro l hl
    rw [List.eq_of_mem_replicate hl]
    simp [BASE]
  · intro i v hi hq
    unfold mulRow
    apply foldlM_range_inv (fun v j => mulStep fuel a b i j v)
      (fun _ v => v.length = a.length + b.length ∧ ∀ l ∈ v, 0 ≤ l ∧ l < BASE) _ _ hq
    intro j w hj hw
    exact mulStep_range fuel a b w i j ha hb hw.2 hi hj hw.1 hf

theorem value_set (v : List Int) : ∀ (k : Nat) (x : Int), k < v.length →
    value (v.set k x) = value v + (x - v.getD k 0) * BASE ^ k := by
  induction v with
  | nil => intro k x hk; simp at hk
  | cons y ys ih =>
    intro k x hk
    cases k with
    | zero =>
      simp only [List.set_cons_zero, value_cons, List.getD_cons_zero, pow_zero]
      ring
    | succ k =>
      have hg : (y :: ys).getD (k + 1) 0 = ys.getD k 0 := rfl
      rw [List.set_cons_succ, value_cons, value_cons, hg,
        ih k x (by simpa using hk), pow_succ]
      ring

theorem mulStep_accumulate (fuel : Nat) (a b nv : List Int) (i j : Nat)
    (ha : ∀ l ∈ a, 0 ≤ l ∧ l < BASE) (hb : ∀ l ∈ b, 0 ≤ l ∧ l < BASE)
    (hv : ∀ l ∈ nv, 0 ≤ l ∧ l < BASE) (hi : i < a.length) (hj : j < b.length)
    (hlen : i + j + 1 < nv.length) :
    mulStep (fuel + 2) a b i j nv = .ok (accumulate nv (i + j) (a.getD i 0 * b.getD j 0)) :=
  mulStep_closed fuel a b nv i j ha hb hv hi hj hlen

/-- Adding a limb product at `pos` is exact when the limb at `pos + 1` is
still zero. -/
theorem accumulate_exact (v : List Int) (pos : Nat) (P : Int)
    (hv : ∀ l ∈ v, 0 ≤ l ∧ l < BASE) (hP : 0 ≤ P ∧ P ≤ 9999999800000001)
    (hlen : pos + 1 < v.length) (hz : v.getD (pos + 1) 0 = 0) :
    (accumulate v pos P).length = v.length ∧
    (∀ l ∈ accumulate v pos P, 0 ≤ l ∧ l < BASE) ∧
    (∀ k, pos + 1 < k → (accumulate v pos P).getD k 0 = v.getD k 0) ∧
    value (accumulate v pos P) = value v + P * BASE ^ pos := by
  obtain ⟨hP0, hP1⟩ := hP
  obtain ⟨hg0, hg1⟩ := getD_bounds v hv pos
  have hB : (0 : Int) < BASE := by simp [BASE]
  unfold accumulate
  refine ⟨by rw [List.length_set, List.length_set], ?_, ?_, ?_⟩
  · apply mem_set_bounds
    · apply mem_set_bounds _ _ _ hv
      exact ⟨Int.emod_nonneg _ (ne_of_gt hB), Int.emod_lt_of_pos _ hB⟩
    · exact ⟨Int.emod_nonneg _ (ne_of_gt hB), Int.emod_lt_of_pos _ hB⟩
  · intro k hk
    rw [getD_set_ne _ _ _ _ (by omega), getD_set_ne _ _ _ _ (by omega)]
  · rw [value_set _ _ _ (by rw [List.length_set]; exact hlen),
      value_set _ _ _ (by omega), getD_set_ne _ _ _ _ (by omega), hz, pow_succ]
    simp only [BASE] at hg1 ⊢
    generalize v.getD pos 0 = x at hg0 hg1
    generalize (100000000 : Int) ^ pos = Bp
    have h1 : (0 + ((x + P % 100000000) / 100000000 + P / 100000000)) % 100000000 =
        (x + P % 100000000) / 100000000 + P / 100000000 := by omega
    have h2 : (x + P % 100000000) % 100000000 - x +
        ((x + P % 100000000) / 100000000 + P / 100000000) * 100000000 = P := by omega
    rw [h1]
    linear_combination Bp * h2

theorem value_replicate_zero (n : Nat) : value (List.replicate n 0) = 0 := by
  induction n with
  | zero => rfl
  | succ n ih => rw [List.replicate_succ, value_cons, ih]; simp

theorem getD_replicate_zero (n k : Nat) : (List.replicate n (0 : Int)).getD k 0 = 0 := by
  by_cases h : k < n
  · rw [List.getD_eq_getElem _ _ (by simpa using h)]
    simp
  · rw [List.getD_eq_default _ _ (by simpa using h)]

theorem value_take_succ (L : List Int) (t : Nat) (ht : t < L.length) :
    value (L.take (t + 1)) = value (L.take t) + L.getD t 0 * BASE ^ t := by
  rw [List.take_succ, List.getElem?_eq_getElem ht, Option.toList_some, value_append,
    List.length_take, Nat.min_eq_left (by omega), List.getD_eq_getElem _ _ ht, value_cons,
    value_nil]
  ring

/-- A fold of exact accumulation steps, one limb of `L` per position, computes
`value L * c`. -/
theorem single_limb_fold (f : List Int → Nat → Except Fault (List Int)) (L : List Int) (c : Int)
    (hL : ∀ l ∈ L, 0 ≤ l ∧ l < BASE) (hc : 0 ≤ c ∧ c < BASE)
    (hf : ∀ v t, t < L.length → (∀ l ∈ v, 0 ≤ l ∧ l < BASE) → v.length = L.length + 1 →
      f v t = .ok (accumulate v t (L.getD t 0 * c))) :
    ∃ acc, (List.range L.length).foldlM f (List.replicate (L.length + 1) 0) = .ok acc ∧
      acc.length = L.length + 1 ∧ (∀ l ∈ acc, 0 ≤ l ∧ l < BASE) ∧ value acc = value L * c := by
  obtain ⟨acc, hacc, hlen, hrange, -, hval⟩ := foldlM_range_inv f
    (fun t v => v.length = L.length + 1 ∧ (∀ l ∈ v, 0 ≤ l ∧ l < BASE) ∧
      (∀ k, t < k → v.getD k 0 = 0) ∧ value v = value (L.take t) * c)
    L.length (List.replicate (L.length + 1) 0)
    ⟨by simp, by
        intro l hl
        rw [List.eq_of_mem_replicate hl]
        simp [BASE],
      fun k _ => getD_replicate_zero _ k, by
        rw [value_replicate_zero, List.take_zero, value_nil, zero_mul]⟩
    (by
      intro t v ht ⟨hvlen, hvr, hvz, hvv⟩
      have hP := limb_product_bounds _ _ (getD_bounds L hL t) hc
      obtain ⟨h1, h2, h3, h4⟩ := accumulate_exact v t (L.getD t 0 * c) hvr hP (by omega)
        (hvz (t + 1) (by omega))
      refine ⟨_, hf v t ht hvr hvlen, by rw [h1, hvlen], h2, ?_, ?_⟩
      · intro k hk
        rw [h3 k (by omega)]
        exact hvz k (by omega)
      · rw [h4, hvv, value_take_succ L t ht]
        ring)
  refine ⟨acc, hacc, hlen, hrange, ?_⟩
  rw [hval, List.take_length]

theorem range_one_eq : List.range 1 = [0] := rfl

theorem mulLoop_single (fuel : Nat) (a b : List Int) (ha : ∀ l ∈ a, 0 ≤ l ∧ l < BASE)
    (hb : ∀ l ∈ b, 0 ≤ l ∧ l < BASE) (h1 : a.length = 1 ∨ b.length = 1) (hf : 2 ≤ fuel) :
    ∃ acc, mulLoop fuel a b (List.replicate (a.length + b.length) 0) = .ok acc ∧
      acc.length = a.length + b.length ∧ (∀ l ∈ acc, 0 ≤ l ∧ l < BASE) ∧
      value acc = value a * value b := by
  obtain ⟨f, rfl⟩ : ∃ f, fuel = f + 2 := ⟨fuel - 2, by omega⟩
  rcases h1 with h | h
  · -- `a` has one limb: a single row, one step per limb of `b`
    obtain ⟨x, rfl⟩ : ∃ x, a = [x] := by
      match a, h with
      | [x], _ => exact ⟨x, rfl⟩
    have hx := ha x (List.mem_singleton_self x)
    obtain ⟨acc, hacc, hlen, hr, hv⟩ := single_limb_fold
      (fun v j => mulStep (f + 2) [x] b 0 j v) b x hb hx (by
        intro v t ht hvr hvl
        have := mulStep_accumulate f [x] b v 0 t ha hb hvr (by simp) ht (by omega)
        simp only [zero_add, List.getD_cons_zero] at this
        show mulStep (f + 2) [x] b 0 t v = _
        rw [this, mul_comm])
    refine ⟨acc, ?_, by rw [hlen, List.length_singleton, Nat.add_comm], hr, ?_⟩
    · have hrep : List.replicate ([x].length + b.length) (0 : Int) =
          List.replicate (b.length + 1) 0 := by
        rw [List.length_singleton, Nat.add_comm]
      rw [hrep]
      unfold mulLoop mulRow
      simp only [List.length_singleton, range_one_eq, List.foldlM_cons, List.foldlM_nil,
        bind, Except.bind, hacc]
      rfl
    · rw [hv, value_cons, value_nil]
      ring
  · -- `b` has one limb: one row of a single step per limb of `a`
    obtain ⟨y, rfl⟩ : ∃ y, b = [y] := by
      match b, h with
      | [y], _ => exact ⟨y, rfl⟩
    have hy := hb y (List.mem_singleton_self y)
    obtain ⟨acc, hacc, hlen, hr, hv⟩ := single_limb_fold
      (fun v i => mulRow (f + 2) a [y] i v) a y ha hy (by
        intro v t ht hvr hvl
        have := mulStep_accumulate f a [y] v t 0 ha hb hvr ht (by simp) (by omega)
        simp only [add_zero, List.getD_cons_zero] at this
        unfold mulRow
        simp only [List.length_singleton, range_one_eq, List.foldlM_cons, List.foldlM_nil,
          bind, Except.bind, this]
        rfl)
    refine ⟨acc, ?_, by rw [hlen, List.length_singleton], hr, ?_⟩
    · unfold mulLoop
      rw [List.length_singleton]
      exact hacc
    · rw [hv, value_cons, value_nil]
      ring

/-- The product of an exact accumulator: stripping leaves the canonical limbs
of the value. -/
theorem mul_single (fuel : Nat) (a b : BigInteger) (ha : ∀ l ∈ a.s, 0 ≤ l ∧ l < BASE)
    (hb : ∀ l ∈ b.s, 0 ≤ l ∧ l < BASE) (hne : a.s ≠ [] ∧ b.s ≠ [])
    (h0 : value a.s * value b.s ≠ 0)
    (h1 : a.s.length = 1 ∨ b.s.length = 1) (hf : a.s.length + b.s.length ≤ fuel) :
    ∃ w, mul fuel a b = .ok ⟨a.sign == b.sign, w⟩ ∧ w ≠ [] ∧ (∀ l ∈ w, 0 ≤ l ∧ l < BASE) ∧
      w.getLast? ≠ some 0 ∧ value w = value a.s * value b.s := by
  have hla : 1 ≤ a.s.length := List.length_pos.mpr hne.1
  have hlb : 1 ≤ b.s.length := List.length_pos.mpr hne.2
  obtain ⟨acc, hacc, hlen, hr, hv⟩ := mulLoop_single fuel a.s b.s ha hb h1 (by omega)
  obtain ⟨w, hw, hwv, hwne, hwlast, hwmem⟩ := strip_spec acc (by rw [hv]; exact h0)
  refine ⟨w, ?_, hwne, fun l hl => hr l (hwmem l hl), hwlast, by rw [hwv, hv]⟩
  unfold mul
  simp only [hacc, bind, Except.bind, hw fuel (by omega)]

/-! ### Decimal numerals and `operator<<` -/

theorem toDigitsCore_append : ∀ (fuel n : Nat) (ds : List Char), n < fuel →
    Nat.toDigitsCore 10 fuel n ds = Nat.toDigitsCore 10 (n + 1) n [] ++ ds := by
  intro fuel
  induction fuel using Nat.strong_induction_on with
  | _ fuel ih =>
    intro n ds hn
    obtain ⟨f, rfl⟩ : ∃ f, fuel = f + 1 := ⟨fuel - 1, by omega⟩
    by_cases hz : n / 10 = 0
    · simp only [Nat.toDigitsCore, hz, if_true]
      rfl
    · have h1 : Nat.toDigitsCore 10 (f + 1) n ds =
          Nat.toDigitsCore 10 f (n / 10) (Nat.digitChar (n % 10) :: ds) := by
        simp only [Nat.toDigitsCore, hz, if_false]
      have h2 : Nat.toDigitsCore 10 (n + 1) n [] =
          Nat.toDigitsCore 10 n (n / 10) [Nat.digitChar (n % 10)] := by
        simp only [Nat.toDigitsCore, hz, if_false]
      rw [h1, h2, ih f (by omega) (n / 10) _ (by omega),
        ih n (by omega) (n / 10) _ (by omega)]
      simp

theorem toDigits_lt_ten (n : Nat) (h : n < 10) : Nat.toDigits 10 n = [Nat.digitChar n] := by
  have hz : n / 10 = 0 := by omega
  have hm : n % 10 = n := by omega
  simp only [Nat.toDigits, Nat.toDigitsCore, hz, if_true, hm]

theorem toDigits_ge_ten (n : Nat) (h : 10 ≤ n) :
    Nat.toDigits 10 n = Nat.toDigits 10 (n / 10) ++ [Nat.digitChar (n % 10)] := by
  have hz : n / 10 ≠ 0 := by omega
  have h2 : Nat.toDigitsCore 10 (n + 1) n [] =
      Nat.toDigitsCore 10 n (n / 10) [Nat.digitChar (n % 10)] := by
    simp only [Nat.toDigitsCore, hz, if_false]
  rw [Nat.toDigits, h2, toDigitsCore_append n (n / 10) _ (by omega)]
  rfl

theorem digitChar_facts (d : Nat) (h : d < 10) :
    isdigit (Nat.digitChar d) = true ∧ (Nat.digitChar d).toNat - 48 = d ∧
      (Nat.digitChar d = '0' ↔ d = 0) := by
  interval_cases d <;> decide

theorem toDigits_spec (n : Nat) :
    (Nat.toDigits 10 n) ≠ [] ∧ (∀ c ∈ Nat.toDigits 10 n, isdigit c = true) ∧
      digitsValue (Nat.toDigits 10 n) = n ∧
      (0 < n → (Nat.toDigits 10 n).head? ≠ some '0') := by
  induction n using Nat.strong_induction_on with
  | _ n ih =>
    by_cases h : n < 10
    · obtain ⟨h1, h2, h3⟩ := digitChar_facts n h
      rw [toDigits_lt_ten n h]
      refine ⟨by simp, ?_, ?_, ?_⟩
      · intro c hc
        rw [List.mem_singleton] at hc
        rw [hc]; exact h1
      · rw [digitsValue_cons, digitsValue_nil, h2]
        simp
      · intro hpos
        simp only [List.head?_cons, ne_eq, Option.some.injEq]
        rw [h3]
        omega
    · obtain ⟨i1, i2, i3, i4⟩ := ih (n / 10) (by omega)
      obtain ⟨h1, h2, h3⟩ := digitChar_facts (n % 10) (by omega)
      rw [toDigits_ge_ten n (by omega)]
      refine ⟨by simp, ?_, ?_, ?_⟩
      · intro c hc
        rcases List.mem_append.mp hc with hc | hc
        · exact i2 c hc
        · rw [List.mem_singleton] at hc
          rw [hc]; exact h1
      · rw [digitsValue_append, i3, digitsValue_cons, digitsValue_nil, h2]
        simp only [List.length_singleton, pow_one, List.length_nil, pow_zero, mul_one, add_zero]
        omega
      · intro _
        obtain ⟨c, cs, hcs⟩ := List.exists_cons_of_ne_nil i1
        have := i4 (by omega)
        rw [hcs] at this ⊢
        simpa using this

theorem toDigits_length_le (n k : Nat) (hk : 1 ≤ k) (h : n < 10 ^ k) :
    (Nat.toDigits 10 n).length ≤ k := by
  induction k generalizing n with
  | zero => omega
  | succ k ih =>
    by_cases h10 : n < 10
    · rw [toDigits_lt_ten n h10]
      simp
    · have hk1 : 1 ≤ k := by
        by_contra hc
        have : k = 0 := by omega
        subst this
        simp at h
        omega
      have hlt : n / 10 < 10 ^ k := by
        rw [pow_succ] at h
        omega
      rw [toDigits_ge_ten n (by omega), List.length_append, List.length_singleton]
      have := ih (n / 10) hk1 hlt
      omega

/-- Padding to width `k + 1` peels the last digit. -/
theorem setw_fill_succ (a k : Nat) (hk : 1 ≤ k) (h : a < 10 ^ (k + 1)) :
    setw_fill (k + 1) (Nat.toDigits 10 a) =
      setw_fill k (Nat.toDigits 10 (a / 10)) ++ [Nat.digitChar (a % 10)] := by
  by_cases h10 : a < 10
  · have hz : a / 10 = 0 := by omega
    have hm : a % 10 = a := by omega
    have h0 : Nat.toDigits 10 0 = ['0'] := rfl
    rw [toDigits_lt_ten a h10, hz, hm, h0]
    simp only [setw_fill, List.length_singleton, Nat.add_sub_cancel]
    obtain ⟨j, rfl⟩ : ∃ j, k = j + 1 := ⟨k - 1, by omega⟩
    simp only [Nat.add_sub_cancel, List.replicate_succ', List.append_assoc]
  · have hlt : a / 10 < 10 ^ k := by
      rw [pow_succ] at h
      omega
    have hlen := toDigits_length_le (a / 10) k hk hlt
    rw [toDigits_ge_ten a (by omega)]
    simp only [setw_fill, List.length_append, List.length_singleton, List.append_assoc]
    have : k + 1 - ((Nat.toDigits 10 (a / 10)).length + 1) =
        k - (Nat.toDigits 10 (a / 10)).length := by omega
    rw [this]

/-- The numeral of `m * 10^k + a` is the numeral of `m` followed by `a` padded
to `k` digits. -/
theorem toDigits_concat (k : Nat) (hk : 1 ≤ k) : ∀ (m a : Nat), 0 < m → a < 10 ^ k →
    Nat.toDigits 10 (m * 10 ^ k + a) =
      Nat.toDigits 10 m ++ setw_fill k (Nat.toDigits 10 a) := by
  induction k with
  | zero => omega
  | succ k ih =>
    intro m a hm ha
    have hpos : 0 < 10 ^ k := by positivity
    have hge : 10 ≤ m * 10 ^ (k + 1) + a := by
      rw [pow_succ]
      nlinarith
    have hq : m * 10 ^ (k + 1) = 10 * (m * 10 ^ k) := by rw [pow_succ]; ring
    have hdiv : (m * 10 ^ (k + 1) + a) / 10 = m * 10 ^ k + a / 10 := by
      rw [hq]
      omega
    have hmod : (m * 10 ^ (k + 1) + a) % 10 = a % 10 := by
      rw [hq]
      omega
    rw [toDigits_ge_ten _ hge, hdiv, hmod]
    by_cases hk0 : k = 0
    · subst hk0
      simp only [zero_add, pow_one, pow_zero, mul_one] at ha ⊢
      have hz : a / 10 = 0 := by omega
      have hm2 : a % 10 = a := by omega
      rw [hz, hm2, toDigits_lt_ten a ha]
      simp [setw_fill]
    · have hlt : a / 10 < 10 ^ k := by
        rw [pow_succ] at ha
        omega
      rw [ih (by omega) m (a / 10) hm hlt, setw_fill_succ a k (by omega) ha, List.append_assoc]

theorem to_string_nonneg (x : Int) (h : 0 ≤ x) : to_string x = Nat.toDigits 10 x.toNat := by
  have : x.natAbs = x.toNat := by omega
  rw [to_string, if_neg (by omega), this]

theorem printLoop_eq (s : List Int) : ∀ n, n ≤ s.length →
    printLoop s n = .ok (paddedLimbs s n) := by
  intro n
  induction n with
  | zero => intro _; rfl
  | succ n ih =>
    intro hn
    rw [printLoop, idx_of_lt s n (by omega), ih (by omega)]
    rfl

theorem paddedLimbs_cons (x : Int) (s : List Int) : ∀ n,
    paddedLimbs (x :: s) (n + 1) =
      paddedLimbs s n ++ setw_fill WIDTH.toNat (to_string x) := by
  intro n
  induction n with
  | zero => simp [paddedLimbs]
  | succ n ih =>
    have hg : (x :: s).getD (n + 1) 0 = s.getD n 0 := rfl
    rw [paddedLimbs, ih, hg, paddedLimbs, List.append_assoc]

theorem value_pos (s : List Int) (hb : ∀ l ∈ s, 0 ≤ l ∧ l < BASE) (hne : s ≠ [])
    (hlast : s.getLast? ≠ some 0) : 0 < value s := by
  have h0 := value_nonneg s hb
  have h := limbs_eq_digits s hb hlast
  by_contra hc
  have hz : value s = 0 := by omega
  rw [hz] at h
  simp at h
  exact hne h

/-- The decimal digits of the value of a canonical limb sequence: the top limb
without padding, then the other limbs padded to eight digits. -/
theorem numeral_limbs (s : List Int) (hb : ∀ l ∈ s, 0 ≤ l ∧ l < BASE) (hne : s ≠ [])
    (hlast : s.getLast? ≠ some 0) :
    Nat.toDigits 10 (value s).toNat =
      to_string (s.getLast?.getD 0) ++ paddedLimbs s (s.length - 1) := by
  induction s with
  | nil => exact absurd rfl hne
  | cons x xs ih =>
    obtain ⟨hx0, hx1⟩ := hb x (List.mem_cons_self _ _)
    have hbx : ∀ l ∈ xs, 0 ≤ l ∧ l < BASE := fun l hl => hb l (List.mem_cons_of_mem _ hl)
    simp only [BASE] at hx1
    cases xs with
    | nil =>
      simp only [value_cons, value_nil, mul_zero, add_zero, List.getLast?_singleton,
        Option.getD_some, List.length_singleton, Nat.sub_self, paddedLimbs, List.append_nil]
      exact (to_string_nonneg x hx0).symm
    | cons y ys =>
      have hl2 : (y :: ys).getLast? ≠ some 0 := by rwa [List.getLast?_cons_cons] at hlast
      have hV := value_pos (y :: ys) hbx (by simp) hl2
      have ih2 := ih hbx (by simp) hl2
      have hval : (value (x :: y :: ys)).toNat =
          (value (y :: ys)).toNat * 10 ^ 8 + x.toNat := by
        rw [value_cons]
        simp only [BASE]
        omega
      have hlen : (x :: y :: ys).length - 1 = (y :: ys).length - 1 + 1 := by
        simp only [List.length_cons]
        omega
      have hw : WIDTH.toNat = 8 := rfl
      rw [hval, toDigits_concat 8 (by norm_num) _ _ (by omega) (by omega), ih2,
        List.getLast?_cons_cons, hlen, paddedLimbs_cons, hw, to_string_nonneg x hx0,
        List.append_assoc]

theorem print_canonical (x : BigInteger) (hne : x.s ≠ []) (hlast : x.s.getLast? ≠ some 0) :
    print x = .ok ((if x.sign = false then ['-'] else []) ++
      to_string (x.s.getLast?.getD 0) ++ paddedLimbs x.s (x.s.length - 1)) := by
  obtain ⟨top, htop⟩ : ∃ top, x.s.getLast? = some top := by
    cases h : x.s.getLast? with
    | none => exact absurd (List.getLast?_eq_none_iff.mp h) hne
    | some t => exact ⟨t, rfl⟩
  have hlen : 1 ≤ x.s.length := List.length_pos.mpr hne
  have hzero : (if x.s.length = 1 then (idx x.s 0).map (fun s0 => decide (s0 = 0))
      else Except.ok false) = Except.ok false := by
    by_cases h1 : x.s.length = 1
    · rw [if_pos h1]
      obtain ⟨s0, hs⟩ : ∃ s0, x.s = [s0] := by
        match x.s, h1 with
        | [s0], _ => exact ⟨s0, rfl⟩
      rw [hs] at hlast ⊢
      have hs0 : s0 ≠ 0 := by
        intro h
        rw [h] at hlast
        exact hlast rfl
      simp [idx, Except.map, hs0]
    · rw [if_neg h1]
  unfold print
  simp only [hzero, bind, Except.bind, htop, printLoop_eq x.s (x.s.length - 1) (by omega)]
  simp [hlen]

theorem decimal_canonical (x : BigInteger) (hb : ∀ l ∈ x.s, 0 ≤ l ∧ l < BASE) (hne : x.s ≠ [])
    (hlast : x.s.getLast? ≠ some 0) :
    decimal (toInt x) = (if x.sign = false then ['-'] else []) ++
      to_string (x.s.getLast?.getD 0) ++ paddedLimbs x.s (x.s.length - 1) := by
  have hpos := value_pos x.s hb hne hlast
  have hnum := numeral_limbs x.s hb hne hlast
  cases hs : x.sign with
  | true =>
    have h1 : (value x.s).natAbs = (value x.s).toNat := by omega
    have ht : toInt x = value x.s := by simp [toInt, hs]
    rw [ht, decimal, if_neg (not_lt.mpr (le_of_lt hpos)), h1, hnum]
    simp
  | false =>
    have h1 : (-value x.s).natAbs = (value x.s).toNat := by omega
    have h2 : -value x.s < 0 := by omega
    have ht : toInt x = -value x.s := by simp [toInt, hs]
    rw [ht, decimal, if_pos h2, h1, hnum]
    simp

theorem decimal_spec (z : Int) :
    ∃ ds, decimal z = (if z < 0 then ['-'] else []) ++ ds ∧ ds ≠ [] ∧
      (∀ c ∈ ds, isdigit c = true) ∧ (digitsValue ds : Int) = |z| ∧
      (z ≠ 0 → ds.head? ≠ some '0') := by
  obtain ⟨h1, h2, h3, h4⟩ := toDigits_spec z.natAbs
  refine ⟨Nat.toDigits 10 z.natAbs, ?_, h1, h2, ?_, ?_⟩
  · by_cases hz : z < 0
    · simp [decimal, hz]
    · simp [decimal, hz]
  · rw [h3]
    exact Int.natCast_natAbs z
  · intro hz
    exact h4 (by omega)

theorem decimal_injective (z w : Int) (h : decimal z = decimal w) : z = w := by
  obtain ⟨a1, a2, a3, a4⟩ := toDigits_spec z.natAbs
  obtain ⟨b1, b2, b3, b4⟩ := toDigits_spec w.natAbs
  obtain ⟨c, cs, hc⟩ := List.exists_cons_of_ne_nil a1
  obtain ⟨d, ds, hd⟩ := List.exists_cons_of_ne_nil b1
  have hcm : c ≠ '-' := (not_sign_of_isdigit c (a2 c (by rw [hc]; exact List.mem_cons_self _ _))).1
  have hdm : d ≠ '-' := (not_sign_of_isdigit d (b2 d (by rw [hd]; exact List.mem_cons_self _ _))).1
  unfold decimal at h
  by_cases hz : z < 0 <;> by_cases hw : w < 0
  · rw [if_pos hz, if_pos hw] at h
    have h' := List.tail_eq_of_cons_eq h
    have := congrArg digitsValue h'
    rw [a3, b3] at this
    omega
  · rw [if_pos hz, if_neg hw, hd] at h
    exact absurd (List.head_eq_of_cons_eq h).symm hdm
  · rw [if_neg hz, if_pos hw, hc] at h
    exact absurd (List.head_eq_of_cons_eq h) hcm
  · rw [if_neg hz, if_neg hw] at h
    have := congrArg digitsValue h
    rw [a3, b3] at this
    omega

theorem inv_limbs_unique (x y : BigInteger) (hx : Inv x) (hy : Inv y)
    (h : value x.s = value y.s) : x.s = y.s := by
  obtain ⟨hxne, hxb, hxl, -⟩ := hx
  obtain ⟨hyne, hyb, hyl, -⟩ := hy
  by_cases h1 : x.s.getLast? = some 0
  · have hx0 := hxl h1
    by_cases h2 : y.s.getLast? = some 0
    · rw [hx0, hyl h2]
    · have := value_pos y.s hyb hyne h2
      rw [← h, hx0] at this
      exact absurd this (by decide)
  · have hp := value_pos x.s hxb hxne h1
    have h2 : y.s.getLast? ≠ some 0 := by
      intro hc
      rw [h, hyl hc] at hp
      exact absurd hp (by decide)
    rw [limbs_eq_digits x.s hxb h1, limbs_eq_digits y.s hyb h2, h]

theorem toInt_injective (x y : BigInteger) (hx : Inv x) (hy : Inv y)
    (h : toInt x = toInt y) : x = y := by
  have hvx := value_nonneg x.s hx.2.1
  have hvy := value_nonneg y.s hy.2.1
  have key : ∀ z : BigInteger, Inv z → z.sign = false → 0 < value z.s := by
    intro z hz hs
    obtain ⟨hne, hb, hl, hsg⟩ := hz
    apply value_pos z.s hb hne
    intro hc
    have := hsg (hl hc)
    rw [hs] at this
    exact absurd this (by decide)
  have hsv : x.sign = y.sign ∧ value x.s = value y.s := by
    unfold toInt at h
    cases hsx : x.sign <;> cases hsy : y.sign <;> simp only [hsx, hsy] at h
    · exact ⟨rfl, by simpa using h⟩
    · have := key x hx hsx
      simp at h
      omega
    · have := key y hy hsy
      simp at h
      omega
    · exact ⟨rfl, by simpa using h⟩
  have hl := inv_limbs_unique x y hx hy hsv.2
  cases x; cases y
  simp only at hsv hl
  rw [hsv.1, hl]

theorem digitChar_of_isdigit (c : Char) (h : isdigit c = true) :
    Nat.digitChar (c.toNat - 48) = c := by
  have hc := (isdigit_iff c).mp h
  obtain ⟨h1, h2, -⟩ := digitChar_facts (c.toNat - 48) (by omega)
  have h3 := (isdigit_iff _).mp h1
  by_contra hne
  exact toNat_ne_of_ne _ _ hne (by omega)

/-- The numeral of the value of a digit string without leading zero is the
string itself. -/
theorem toDigits_digitsValue (body : List Char) (hd : ∀ c ∈ body, isdigit c = true)
    (hne : body ≠ []) (hhead : body.head? ≠ some '0') :
    Nat.toDigits 10 (digitsValue body) = body := by
  induction body using List.reverseRecOn with
  | nil => exact absurd rfl hne
  | append_singleton init c ih =>
    have hc := hd c (by simp)
    have hcn := (isdigit_iff c).mp hc
    have hdc := digitChar_of_isdigit c hc
    rw [digitsValue_append, digitsValue_cons, digitsValue_nil]
    simp only [List.length_singleton, pow_one, List.length_nil, pow_zero, mul_one, add_zero]
    by_cases hinit : init = []
    · subst hinit
      rw [digitsValue_nil, zero_mul, zero_add, toDigits_lt_ten _ (by omega), hdc]
      rfl
    · obtain ⟨d, rest, hdr⟩ := List.exists_cons_of_ne_nil hinit
      have hd0 : d ≠ '0' := by
        intro h
        apply hhead
        rw [hdr, h]
        rfl
      have hinit_d : ∀ x ∈ init, isdigit x = true := fun x hx => hd x (by simp [hx])
      have hpos : 0 < digitsValue init := by
        rw [hdr]
        exact digitsValue_pos d rest (hinit_d d (by rw [hdr]; exact List.mem_cons_self _ _)) hd0
      have ih2 := ih hinit_d hinit (by rw [hdr]; simpa using hd0)
      have hdiv : (digitsValue init * 10 + (c.toNat - 48)) / 10 = digitsValue init := by omega
      have hmod : (digitsValue init * 10 + (c.toNat - 48)) % 10 = c.toNat - 48 := by omega
      rw [toDigits_ge_ten _ (by omega), hdiv, hmod, ih2, hdc]

/-- The string constructor on an optional `-`, zeros `zs` and a digit run
`c :: rest` that starts with a digit other than `0`. -/
theorem ofString_scan (neg : Bool) (zs rest : List Char) (c : Char) (hz : ∀ d ∈ zs, d = '0')
    (hc : c ≠ '0') (hdig : ∀ d ∈ c :: rest, isdigit d = true) :
    ∃ out, (∀ fuel, ((if neg then ['-'] else []) ++ (zs ++ c :: rest)).length + 1 ≤ fuel →
        ofString fuel ((if neg then ['-'] else []) ++ (zs ++ c :: rest)) = .ok ⟨!neg, out⟩) ∧
      value out = (digitsValue (c :: rest) : Int) ∧ (∀ l ∈ out, 0 ≤ l ∧ l < BASE) ∧
      out ≠ [] ∧ out.getLast? ≠ some 0 := by
  cases neg with
  | true =>
    obtain ⟨out, ho, hv, hb, hne, hlast⟩ := scan_spec ['-'] zs rest c hz hc hdig
    refine ⟨out, ?_, hv, hb, hne, hlast⟩
    intro fuel hf
    have hstr : (if true = true then ['-'] else []) ++ (zs ++ c :: rest) =
        ['-'] ++ zs ++ c :: rest := by simp
    rw [hstr] at hf ⊢
    obtain ⟨h1, h2⟩ := ho fuel hf
    have hc0 : charAt (['-'] ++ zs ++ c :: rest) 0 = .ok '-' :=
      charAt_cons_zero '-' (zs ++ c :: rest)
    have hdm : isdigit '-' = false := by decide
    unfold ofString
    rw [if_neg (by simp)]
    simp only [hc0, bind, Except.bind, hdm]
    simp only [List.length_singleton] at h1 h2
    simp only [Bool.false_eq_true, if_false, h1, h2]
    simp
  | false =>
    obtain ⟨out, ho, hv, hb, hne, hlast⟩ := scan_spec [] zs rest c hz hc hdig
    refine ⟨out, ?_, hv, hb, hne, hlast⟩
    intro fuel hf
    have hstr : (if false = true then ['-'] else []) ++ (zs ++ c :: rest) =
        [] ++ zs ++ c :: rest := by simp
    rw [hstr] at hf ⊢
    obtain ⟨h1, h2⟩ := ho fuel hf
    obtain ⟨c0, tl, hc0⟩ : ∃ c0 tl, [] ++ zs ++ c :: rest = c0 :: tl := by
      cases zs with
      | nil => exact ⟨c, rest, rfl⟩
      | cons z zs => exact ⟨z, zs ++ c :: rest, rfl⟩
    have hc0d : isdigit c0 = true := by
      have hm : c0 ∈ [] ++ zs ++ c :: rest := by rw [hc0]; exact List.mem_cons_self _ _
      rw [List.nil_append] at hm
      rcases List.mem_append.mp hm with h | h
      · rw [hz c0 h]; decide
      · exact hdig c0 h
    have hc0m : c0 ≠ '-' := (not_sign_of_isdigit c0 hc0d).1
    have hch : charAt ([] ++ zs ++ c :: rest) 0 = .ok c0 := by
      rw [hc0]; exact charAt_cons_zero c0 tl
    unfold ofString
    rw [if_neg (by simp)]
    simp only [hch, bind, Except.bind, hc0d, if_true, if_neg hc0m]
    simp only [List.length_nil] at h1 h2
    simp only [h1, h2]
    rfl

/-- Round trip on strings with a digit that is not `0`: the constructor
followed by `operator<<` gives the sign and the digits without the leading
zeros. -/
theorem roundtrip_nonzero (neg : Bool) (zs rest : List Char) (c : Char)
    (hz : ∀ d ∈ zs, d = '0') (hc : c ≠ '0') (hdig : ∀ d ∈ c :: rest, isdigit d = true) :
    ∃ r, (∀ fuel, ((if neg then ['-'] else []) ++ (zs ++ c :: rest)).length + 1 ≤ fuel →
        ofString fuel ((if neg then ['-'] else []) ++ (zs ++ c :: rest)) = .ok r) ∧
      print r = .ok ((if neg then ['-'] else []) ++ c :: rest) := by
  obtain ⟨out, ho, hv, hb, hne, hlast⟩ := ofString_scan neg zs rest c hz hc hdig
  refine ⟨⟨!neg, out⟩, ho, ?_⟩
  have hnum := numeral_limbs out hb hne hlast
  rw [hv, Int.toNat_ofNat, toDigits_digitsValue (c :: rest) hdig (by simp)
    (by simpa using hc)] at hnum
  rw [print_canonical ⟨!neg, out⟩ hne hlast, List.append_assoc, ← hnum]
  cases neg <;> rfl

/-! ### The constructor from `long long` -/

theorem longLoop_spec : ∀ (m : Nat) (num : Int) (fuel : Nat) (s : List Int), 0 ≤ num →
    num < BASE ^ m → m + 1 ≤ fuel →
    longLoop fuel num s = .ok (s ++ (Nat.digits 100000000 num.toNat).map Int.ofNat) := by
  intro m
  induction m with
  | zero =>
    intro num fuel s h0 h1 hf
    obtain ⟨f, rfl⟩ : ∃ f, fuel = f + 1 := ⟨fuel - 1, by omega⟩
    have hz : num = 0 := by simp at h1; omega
    subst hz
    simp [longLoop]
  | succ m ih =>
    intro num fuel s h0 h1 hf
    obtain ⟨f, rfl⟩ : ∃ f, fuel = f + 1 := ⟨fuel - 1, by omega⟩
    by_cases hz : num = 0
    · subst hz
      simp [longLoop]
    · have hB : (0 : Int) ≤ BASE := by simp [BASE]
      have hdiv : num / BASE < BASE ^ m := by
        rw [pow_succ] at h1
        exact Int.ediv_lt_of_lt_mul (by simp [BASE]) h1
      have hdiv0 : 0 ≤ num / BASE := Int.ediv_nonneg h0 hB
      have hmod : toInt32 (num % BASE) = num % BASE := by
        apply toInt32_of_range <;> simp only [BASE] <;> omega
      rw [longLoop, if_pos hz, Int.tdiv_eq_ediv h0 hB, Int.tmod_eq_emod h0 hB, hmod,
        ih (num / BASE) f _ hdiv0 hdiv (by omega),
        Nat.digits_def' (by norm_num) (by omega : 0 < num.toNat)]
      have e1 : (num / BASE).toNat = num.toNat / 100000000 := by simp only [BASE]; omega
      have e2 : num % BASE = Int.ofNat (num.toNat % 100000000) := by
        simp only [BASE, Int.ofNat_eq_coe]; omega
      rw [e1, e2]
      simp

/-- The constructor from `long long`: the limbs are the base `10^8` digits of
`|n|` and the value satisfies the invariant, but `sign` is always `true`. -/
theorem ofLongLong_spec (n : Int) (h1 : -9223372036854775808 < n)
    (h2 : n < 9223372036854775808) :
    ∃ r, (∀ fuel, 4 ≤ fuel → ofLongLong fuel n = .ok r) ∧ r.sign = true ∧
      r.s = (if n = 0 then [0] else (Nat.digits 100000000 n.natAbs).map Int.ofNat) ∧
      Inv r := by
  by_cases hz : n = 0
  · subst hz
    exact ⟨⟨true, [0]⟩, fun fuel _ => rfl, rfl, rfl, by decide⟩
  · have hne : Nat.digits 100000000 n.natAbs ≠ [] :=
      Nat.digits_ne_nil_iff_ne_zero.mpr (by omega)
    refine ⟨⟨true, (Nat.digits 100000000 n.natAbs).map Int.ofNat⟩, ?_, rfl,
      by rw [if_neg hz], by simpa using hne, ?_, ?_, ?_⟩
    · intro fuel hf
      have habs : (0 : Int) ≤ n.natAbs := by omega
      have hlt : (n.natAbs : Int) < BASE ^ 3 := by simp only [BASE]; omega
      have hloop := longLoop_spec 3 n.natAbs fuel [] habs hlt (by omega)
      rw [Int.toNat_ofNat, List.nil_append] at hloop
      unfold ofLongLong
      by_cases hneg : n < 0
      · have e : -n = (n.natAbs : Int) := by omega
        rw [if_pos hneg, if_pos (by omega), e]
        simp only [bind, Except.bind, hloop]
        rw [if_neg (by omega)]
        simp
      · have e : n = (n.natAbs : Int) := by omega
        rw [if_neg hneg]
        simp only [bind, Except.bind]
        rw [if_neg hz]
        conv_lhs => rw [e]
        simp only [hloop]
        simp
    · intro l hl
      simp only [List.mem_map] at hl
      obtain ⟨d, hd, rfl⟩ := hl
      have := Nat.digits_lt_base (by norm_num : 1 < 100000000) hd
      simp only [BASE, Int.ofNat_eq_coe]
      omega
    · intro h
      simp only [List.getLast?_map, List.getLast?_eq_getLast _ hne, Option.map_some',
        Option.some.injEq, Int.ofNat_eq_coe] at h
      have := Nat.getLast_digit_ne_zero 100000000 (by omega : n.natAbs ≠ 0)
      omega
    · intro _; rfl

/-! ### Values returned by the stripping branches -/

theorem strip_returns : ∀ (fuel : Nat) (v w : List Int), strip fuel v = .ok w →
    w ≠ [] ∧ w.getLast? ≠ some 0 ∧ ∀ l ∈ w, l ∈ v := by
  intro fuel
  induction fuel with
  | zero => intro v w h; simp [strip] at h
  | succ f ih =>
    intro v w h
    rw [strip] at h
    cases hl : v.getLast? with
    | none => rw [hl] at h; simp at h
    | some x =>
      rw [hl] at h
      simp only at h
      by_cases hx : x = 0
      · rw [if_pos hx] at h
        obtain ⟨h1, h2, h3⟩ := ih v.dropLast w h
        exact ⟨h1, h2, fun l hm => List.mem_of_mem_dropLast (h3 l hm)⟩
      · rw [if_neg hx] at h
        have hw : v = w := Except.ok.inj h
        subst hw
        refine ⟨?_, ?_, fun l hm => hm⟩
        · intro hnil
          rw [hnil] at hl
          simp at hl
        · rw [hl]
          simpa using hx

/-- Every value returned by `operator*` on limbs in `[0, 10^8)` satisfies the
representation invariant. -/
theorem mul_returns_inv (fuel : Nat) (a b r : BigInteger) (ha : ∀ l ∈ a.s, 0 ≤ l ∧ l < BASE)
    (hb : ∀ l ∈ b.s, 0 ≤ l ∧ l < BASE) (hf : 2 ≤ fuel) (h : mul fuel a b = .ok r) : Inv r := by
  obtain ⟨acc, hacc, -, hr⟩ := mulLoop_range fuel a.s b.s ha hb hf
  unfold mul at h
  simp only [hacc, bind, Except.bind] at h
  cases hs : strip fuel acc with
  | error e => rw [hs] at h; simp at h
  | ok w =>
    rw [hs] at h
    simp only at h
    obtain ⟨h1, h2, h3⟩ := strip_returns fuel acc w hs
    have hrw := Except.ok.inj h
    subst hrw
    refine ⟨h1, fun l hl => hr l (h3 l hl), fun hc => absurd hc h2, ?_⟩
    intro hc
    simp only at hc
    rw [hc] at h2
    exact absurd rfl h2

/-- Every value returned by the different-sign branch of `operator+` on
operands that satisfy the representation invariant satisfies it too. -/
theorem add_diff_sign_returns_inv (fuel : Nat) (a b r : BigInteger) (ha : Inv a) (hb : Inv b)
    (hsign : a.sign ≠ b.sign) (hf : max a.s.length b.s.length + 1 ≤ fuel)
    (h : add fuel a b = .ok r) : Inv r := by
  by_cases heq : a.s = b.s
  · have hz : add fuel a b = .ok zero := by
      simp [add, hsign, heq, cmp_self, bind, Except.bind]
    rw [hz] at h
    rw [← Except.ok.inj h]
    decide
  · have hvne : value a.s ≠ value b.s := fun hv => heq (inv_limbs_unique a b ha hb hv)
    rcases lt_or_gt_of_ne hvne with hlt | hgt
    · obtain ⟨-, hab, -, -⟩ := ha
      obtain ⟨-, hbb, -, -⟩ := hb
      obtain ⟨out, ho, -, hob, -⟩ := subLoop_spec a.s b.s hab hbb
        (max a.s.length b.s.length) 0 0 rfl (Or.inl rfl)
        (by simp only [List.drop_zero]; omega)
      simp only [add, if_neg hsign, cmp_of_ne _ _ heq, bind, Except.bind, ho fuel [] hf,
        List.nil_append] at h
      cases hs : strip fuel out with
      | error e => rw [hs] at h; simp at h
      | ok w =>
        rw [hs] at h
        simp at h
        obtain ⟨h1, h2, h3⟩ := strip_returns fuel out w hs
        subst h
        refine ⟨h1, fun l hl => hob l (h3 l hl), fun hc => absurd hc h2, ?_⟩
        intro hc
        simp only at hc
        rw [hc] at h2
        exact absurd rfl h2
    · rw [add_diff_sign_gt_diverges a b ha hb hsign hgt fuel] at h
      simp at h

/-- Strings with a character that is neither a digit nor a leading `-`: the
first character is skipped when it is no digit, and `std::stoi` converts the
numeric start of each group. -/
theorem ofString_unvalidated_examples (n : Nat) :
    ofString (n + 2) "+5".toList = .ok ⟨true, [5]⟩ ∧
    ofString (n + 2) "x5".toList = .ok ⟨true, [5]⟩ ∧
    ofString (n + 3) "1-2345678".toList = .ok ⟨true, [-2345678, 1]⟩ ∧
    ofString (n + 3) "12345678a1234567".toList = .error .invalidArgument :=
  ⟨rfl, rfl, rfl, rfl⟩

/-! ## Scenarios of the specification that the code meets -/

theorem scenario_mul_nine_digits (n : Nat) :
    ofString (n + 10) "123456789".toList = .ok ⟨true, [23456789, 1]⟩ ∧
    ofString (n + 10) "987654321".toList = .ok ⟨true, [87654321, 9]⟩ ∧
    mul (n + 4) ⟨true, [23456789, 1]⟩ ⟨true, [87654321, 9]⟩ =
      .ok ⟨true, [12635269, 19326311, 12]⟩ ∧
    print ⟨true, [12635269, 19326311, 12]⟩ = .ok "121932631112635269".toList :=
  ⟨rfl, rfl, rfl, rfl⟩

theorem scenario_mul_double_negative (n : Nat) :
    ofString (n + 3) "-7".toList = .ok ⟨false, [7]⟩ ∧
    ofString (n + 3) "-3".toList = .ok ⟨false, [3]⟩ ∧
    mul (n + 2) ⟨false, [7]⟩ ⟨false, [3]⟩ = .ok ⟨true, [21]⟩ ∧
    print ⟨true, [21]⟩ = .ok "21".toList :=
  ⟨rfl, rfl, rfl, rfl⟩

theorem scenario_leading_zeros (n : Nat) :
    ofString (n + 6) "00042".toList = .ok ⟨true, [42]⟩ ∧
    print ⟨true, [42]⟩ = .ok "42".toList :=
  ⟨rfl, rfl⟩

/-! ## The claims -/

/-- Claim C1, at the input `999999999999999999 + 1`: the equal-sign branch of
`operator+` returns the limbs `[0, 99999999, 99]`, which print as
`999999999900000000`; the carry out of the lowest limb is lost, so the limbs do
not encode the sum of the magnitudes. -/
theorem add_same_sign_drops_carry (n : Nat) :
    add (n + 4) ⟨true, [99999999, 99999999, 99]⟩ ⟨true, [1]⟩ =
      .ok ⟨true, [0, 99999999, 99]⟩ ∧
    print ⟨true, [0, 99999999, 99]⟩ = .ok "999999999900000000".toList ∧
    value [0, 99999999, 99] ≠ value [99999999, 99999999, 99] + value [1] :=
  ⟨rfl, rfl, by decide⟩

/-- Claim C2, at the input `8000000080000000 * 8000000080000000`: `operator*`
returns the limbs `[0, 64000000, 28000000, 64000000]`, whose value is not the
product of the magnitudes (the top limb of the product is `64000001`). -/
theorem mul_drops_carry (n : Nat) :
    mul (n + 5) ⟨true, [80000000, 80000000]⟩ ⟨true, [80000000, 80000000]⟩ =
      .ok ⟨true, [0, 64000000, 28000000, 64000000]⟩ ∧
    value [0, 64000000, 28000000, 64000000] ≠
      value [80000000, 80000000] * value [80000000, 80000000] ∧
    value [0, 64000000, 28000000, 64000001] =
      value [80000000, 80000000] * value [80000000, 80000000] :=
  ⟨rfl, by decide, by decide⟩

/-- Claim C3, at the input `-5 + 3`: `operator+` returns no value.  The result
of `cmp` arrives as `1`, the branch commented `a < b` subtracts `5` from `3`,
and its loop keeps a borrow for ever, whatever the number of steps allowed. -/
theorem add_diff_sign_gt_never_returns (fuel : Nat) :
    add fuel ⟨false, [5]⟩ ⟨true, [3]⟩ = .error .outOfFuel := by
  cases fuel with
  | zero => rfl
  | succ f =>
    have h : subLoop [5] [3] (f + 1) 0 0 0 [] = .error .outOfFuel := by
      have := subLoop_diverges [5] [3] f 1 [99999998] (by simp) (by simp)
      rw [← this]
      rfl
    simp [add, h, bind, Except.bind]
    rfl

/-- Claim C4: for operands that satisfy the representation invariant, have
different signs and `|a| < |b|`, `operator+` returns (for every step budget
above the longer limb count) one value `r` with the sign of `b`, whose limbs
denote `|b| - |a|`, and `r` satisfies the representation invariant. -/
theorem add_diff_sign_lt (a b : BigInteger) (ha : Inv a) (hb : Inv b)
    (hsign : a.sign ≠ b.sign) (hlt : value a.s < value b.s) :
    ∃ r, (∀ fuel, max a.s.length b.s.length + 1 ≤ fuel → add fuel a b = .ok r) ∧
      r.sign = b.sign ∧ value r.s = value b.s - value a.s ∧ Inv r := by
  obtain ⟨-, hab, -, -⟩ := ha
  obtain ⟨-, hbb, -, -⟩ := hb
  have hne : a.s ≠ b.s := by
    intro h; rw [h] at hlt; exact lt_irrefl _ hlt
  obtain ⟨out, ho, hov, hob, hol⟩ := subLoop_spec a.s b.s hab hbb
    (max a.s.length b.s.length) 0 0 rfl (Or.inl rfl)
    (by simp only [List.drop_zero]; omega)
  simp only [List.drop_zero, add_zero] at ho hov
  obtain ⟨w, hw, hwv, hwne, hwlast, hwmem⟩ := strip_spec out (by rw [hov]; omega)
  refine ⟨⟨b.sign, w⟩, ?_, rfl, by simp only [hwv, hov], hwne, ?_, ?_, ?_⟩
  · intro fuel hf
    simp only [add, if_neg hsign, cmp_of_ne _ _ hne, bind, Except.bind, ho fuel [] hf,
      hw fuel (by omega), List.nil_append]
    simp
  · intro l hl
    exact hob l (hwmem l hl)
  · intro h; exact absurd h hwlast
  · intro h
    simp only at h
    rw [h] at hwlast
    exact absurd rfl hwlast

/-- Instance of `add_diff_sign_lt` at `5 + (-100000003)`. -/
theorem add_diff_sign_lt_witness :
    ∃ r, (∀ fuel, max [5].length [3, 1].length + 1 ≤ fuel →
        add fuel ⟨true, [5]⟩ ⟨false, [3, 1]⟩ = .ok r) ∧
      r.sign = false ∧ value r.s = value [3, 1] - value [5] ∧ Inv r :=
  add_diff_sign_lt ⟨true, [5]⟩ ⟨false, [3, 1]⟩ (by decide) (by decide) (by decide) (by decide)

/-- Claim C5: adding to `x` the value with the same limbs and the opposite
sign, in either operand order, returns the canonical zero (`sign = true`,
limbs `[0]`); this holds for every `x` and every step budget. -/
theorem add_opposite_is_zero (fuel : Nat) (x : BigInteger) :
    add fuel x ⟨!x.sign, x.s⟩ = .ok ⟨true, [0]⟩ ∧
    add fuel ⟨!x.sign, x.s⟩ x = .ok ⟨true, [0]⟩ := by
  constructor <;> simp [add, zero, cmp_self, bind, Except.bind]

/-- Claim C6, at the input `-5 + 0`: `operator+` returns no value.  The signs
differ, `cmp` arrives as `1`, and the loop that subtracts `5` from `0` keeps a
borrow for ever, whatever the number of steps allowed. -/
theorem add_zero_negative_never_returns (fuel : Nat) :
    add fuel ⟨false, [5]⟩ zero = .error .outOfFuel := by
  cases fuel with
  | zero => rfl
  | succ f =>
    have h : subLoop [5] [0] (f + 1) 0 0 0 [] = .error .outOfFuel := by
      have := subLoop_diverges [5] [0] f 1 [99999995] (by simp) (by simp)
      rw [← this]
      rfl
    simp [add, zero, h, bind, Except.bind]
    rfl

/-- Claim C7, at the inputs `5 * 0` and `0 * 5`: the accumulator is `[0, 0]`,
the stripping loop removes both limbs and then calls `back()` on the empty
vector, so `operator*` returns no value. -/
theorem mul_zero_faults (n : Nat) :
    mul (n + 3) ⟨true, [5]⟩ zero = .error .emptyBack ∧
    mul (n + 3) zero ⟨true, [5]⟩ = .error .emptyBack :=
  ⟨rfl, rfl⟩

/-- Claim C8, at `a = 10000000100000001` and `b = 199999999`: `a * b` has the
limbs `[99999999, 0, 1, 2]` and `b * a` has the limbs `[99999999, 0, 1, 1]`. -/
theorem mul_not_commutative (n : Nat) :
    mul (n + 6) ⟨true, [1, 1, 1]⟩ ⟨true, [99999999, 1]⟩ = .ok ⟨true, [99999999, 0, 1, 2]⟩ ∧
    mul (n + 6) ⟨true, [99999999, 1]⟩ ⟨true, [1, 1, 1]⟩ = .ok ⟨true, [99999999, 0, 1, 1]⟩ :=
  ⟨rfl, rfl⟩

/-- Claim C9: for a string made of an optional `-` (`neg`) followed by decimal
digits `ds` of which at least one is not `0`, the string constructor returns
(for every step budget above the length of the string) one value `r` that
satisfies the representation invariant, has `sign = false` exactly when the
string starts with `-`, and whose limbs are the base `10^8` digits of the
decimal number written by `ds`, least significant first. -/
theorem ofString_digits (neg : Bool) (ds : List Char) (hd : ∀ c ∈ ds, isdigit c = true)
    (hnz : ∃ c ∈ ds, c ≠ '0') :
    ∃ r, (∀ fuel, ((if neg then ['-'] else []) ++ ds).length + 1 ≤ fuel →
        ofString fuel ((if neg then ['-'] else []) ++ ds) = .ok r) ∧
      Inv r ∧ (r.sign = false ↔ neg = true) ∧ value r.s = (digitsValue ds : Int) ∧
      r.s = (Nat.digits 100000000 (digitsValue ds)).map Int.ofNat := by
  obtain ⟨zs, c, rest, hds, hz, hc⟩ := split_zeros ds hnz
  have hdig : ∀ d ∈ c :: rest, isdigit d = true := by
    intro d hdm
    exact hd d (by rw [hds]; exact List.mem_append_right _ hdm)
  have hval : digitsValue ds = digitsValue (c :: rest) := by
    rw [hds, digitsValue_append, digitsValue_zeros zs hz, zero_mul, zero_add]
  have hdigits : ∀ out : List Int, value out = (digitsValue (c :: rest) : Int) →
      (∀ l ∈ out, 0 ≤ l ∧ l < BASE) → out.getLast? ≠ some 0 →
      out = (Nat.digits 100000000 (digitsValue ds)).map Int.ofNat := by
    intro out hv hb hlast
    have h := limbs_eq_digits out hb hlast
    rw [hv, Int.toNat_ofNat, ← hval] at h
    exact h
  cases neg with
  | true =>
    obtain ⟨out, ho, hv, hb, hne, hlast⟩ := scan_spec ['-'] zs rest c hz hc hdig
    refine ⟨⟨false, out⟩, ?_, ⟨hne, hb, fun h => absurd h hlast, ?_⟩, by simp, by rw [hv, hval],
      hdigits out hv hb hlast⟩
    · intro fuel hf
      have hstr : (if true = true then ['-'] else []) ++ ds = ['-'] ++ zs ++ c :: rest := by
        rw [hds]; simp
      rw [hstr] at hf ⊢
      obtain ⟨h1, h2⟩ := ho fuel hf
      have hc0 : charAt (['-'] ++ zs ++ c :: rest) 0 = .ok '-' :=
        charAt_cons_zero '-' (zs ++ c :: rest)
      have hdm : isdigit '-' = false := by decide
      unfold ofString
      rw [if_neg (by simp)]
      simp only [hc0, bind, Except.bind, hdm]
      simp only [List.length_singleton] at h1 h2
      simp only [Bool.false_eq_true, if_false, h1, h2]
      simp
    · intro h
      simp only at h
      rw [h] at hlast
      exact absurd rfl hlast
  | false =>
    obtain ⟨out, ho, hv, hb, hne, hlast⟩ := scan_spec [] zs rest c hz hc hdig
    refine ⟨⟨true, out⟩, ?_, ⟨hne, hb, fun h => absurd h hlast, fun _ => rfl⟩, by simp,
      by rw [hv, hval], hdigits out hv hb hlast⟩
    intro fuel hf
    have hstr : (if false = true then ['-'] else []) ++ ds = [] ++ zs ++ c :: rest := by
      rw [hds]; simp
    rw [hstr] at hf ⊢
    obtain ⟨h1, h2⟩ := ho fuel hf
    obtain ⟨c0, tl, hc0⟩ : ∃ c0 tl, [] ++ zs ++ c :: rest = c0 :: tl := by
      cases zs with
      | nil => exact ⟨c, rest, rfl⟩
      | cons z zs => exact ⟨z, zs ++ c :: rest, rfl⟩
    have hc0d : isdigit c0 = true := by
      apply hd
      rw [hds]
      have : c0 ∈ [] ++ zs ++ c :: rest := by rw [hc0]; exact List.mem_cons_self _ _
      simpa using this
    have hc0m : c0 ≠ '-' := (not_sign_of_isdigit c0 hc0d).1
    have hch : charAt ([] ++ zs ++ c :: rest) 0 = .ok c0 := by
      rw [hc0]; exact charAt_cons_zero c0 tl
    unfold ofString
    rw [if_neg (by simp)]
    simp only [hch, bind, Except.bind, hc0d, if_true, if_neg hc0m]
    simp only [List.length_nil] at h1 h2
    simp only [h1, h2]

/-- Instance of `ofString_digits` at the string `-00042`. -/
theorem ofString_digits_witness :
    ∃ r, (∀ fuel, ((if true then ['-'] else []) ++ "00042".toList).length + 1 ≤ fuel →
        ofString fuel ((if true then ['-'] else []) ++ "00042".toList) = .ok r) ∧
      Inv r ∧ (r.sign = false ↔ true = true) ∧
      value r.s = (digitsValue "00042".toList : Int) ∧
      r.s = (Nat.digits 100000000 (digitsValue "00042".toList)).map Int.ofNat :=
  ofString_digits true "00042".toList (by decide) ⟨'4', by decide, by decide⟩

/-- Claim C10, at the inputs `"0"`, `"000"` and `"-0"`: the string constructor
returns an empty limb sequence (with `sign = false` for `"-0"`), not the
canonical zero; the sum of two such values has no limb either, and printing it
fails the assertion `s.size() >= 1`. -/
theorem ofString_zero_has_no_limb (n : Nat) :
    ofString (n + 2) "0".toList = .ok ⟨true, []⟩ ∧
    ofString (n + 4) "000".toList = .ok ⟨true, []⟩ ∧
    ofString (n + 2) "-0".toList = .ok ⟨false, []⟩ ∧
    add (n + 1) ⟨true, []⟩ ⟨true, []⟩ = .ok ⟨true, []⟩ ∧
    print ⟨true, []⟩ = .error .assertFailed :=
  ⟨rfl, rfl, rfl, rfl, rfl⟩

/-- Claim C11, at the inputs `0` and `-00`: the constructor returns a value
without limbs and `operator<<` fails its assertion `s.size() >= 1` on it, so
nothing is written where the claim expects the text `0`. -/
theorem roundtrip_zero_fails (n : Nat) :
    ofString (n + 2) "0".toList = .ok ⟨true, []⟩ ∧
    print ⟨true, []⟩ = .error .assertFailed ∧
    ofString (n + 4) "-00".toList = .ok ⟨false, []⟩ ∧
    print ⟨false, []⟩ = .error .assertFailed :=
  ⟨rfl, rfl, rfl, rfl⟩

/-- Claim C12: for a value `x` that satisfies the representation invariant,
`operator<<` writes the standard decimal numeral of the integer that `x`
denotes.  The text is `0` for zero; otherwise it is `-` exactly when
`sign = false`, then the most significant limb without padding, then the
remaining limbs from most to least significant, each zero-padded to exactly 8
digits.  The numeral is an optional `-` before a non-empty run of decimal
digits whose value is `|x|` and which starts with `0` only for zero.  Two
values that satisfy the invariant and have the same output are equal. -/
theorem print_decimal (x : BigInteger) (hx : Inv x) :
    print x = .ok (decimal (toInt x)) ∧
    (x.s = [0] → decimal (toInt x) = ['0']) ∧
    (x.s ≠ [0] → decimal (toInt x) = (if x.sign = false then ['-'] else []) ++
      to_string (x.s.getLast?.getD 0) ++ paddedLimbs x.s (x.s.length - 1)) ∧
    (∀ l ∈ x.s, (setw_fill WIDTH.toNat (to_string l)).length = 8) ∧
    (∃ ds, decimal (toInt x) = (if toInt x < 0 then ['-'] else []) ++ ds ∧ ds ≠ [] ∧
      (∀ c ∈ ds, isdigit c = true) ∧ (digitsValue ds : Int) = |toInt x| ∧
      (toInt x ≠ 0 → ds.head? ≠ some '0')) ∧
    (∀ y, Inv y → print y = print x → y = x) := by
  have hprint : ∀ z : BigInteger, Inv z → print z = .ok (decimal (toInt z)) := by
    intro z hz
    obtain ⟨hne, hb, hl, hsg⟩ := hz
    by_cases h0 : z.s.getLast? = some 0
    · have hs0 := hl h0
      have hsign := hsg hs0
      obtain ⟨sign, s⟩ := z
      simp only at hs0 hsign
      subst hs0 hsign
      rfl
    · rw [print_canonical z hne h0, decimal_canonical z hb hne h0]
  obtain ⟨hne, hb, hl, hsg⟩ := hx
  refine ⟨hprint x ⟨hne, hb, hl, hsg⟩, ?_, ?_, ?_, decimal_spec (toInt x), ?_⟩
  · intro h0
    have hsign := hsg h0
    obtain ⟨sign, s⟩ := x
    simp only at h0 hsign
    subst h0 hsign
    rfl
  · intro h0
    exact decimal_canonical x hb hne (fun h => h0 (hl h))
  · intro l hlm
    obtain ⟨hl0, hl1⟩ := hb l hlm
    simp only [BASE] at hl1
    have hlen := toDigits_length_le l.toNat 8 (by norm_num) (by omega)
    have hw : WIDTH.toNat = 8 := rfl
    rw [to_string_nonneg l hl0, hw, setw_fill, List.length_append, List.length_replicate]
    omega
  · intro y hy hxy
    rw [hprint y hy, hprint x ⟨hne, hb, hl, hsg⟩] at hxy
    exact toInt_injective y x hy ⟨hne, hb, hl, hsg⟩ (decimal_injective _ _ (Except.ok.inj hxy))

/-- Instance of `print_decimal` at `-19999999900000042`. -/
theorem print_decimal_witness :
    print ⟨false, [42, 99999999, 1]⟩ = .ok (decimal (toInt ⟨false, [42, 99999999, 1]⟩)) ∧
    decimal (toInt ⟨false, [42, 99999999, 1]⟩) = "-19999999900000042".toList :=
  ⟨(print_decimal ⟨false, [42, 99999999, 1]⟩ (by decide)).1, rfl⟩

/-- Claim C13, counterexample: the string `12a` is accepted and yields the
value built from its prefix `12`. -/
theorem ofString_accepts_12a : ofString 5 "12a".toList = .ok ⟨true, [12]⟩ := rfl

/-- Claim C13 as amended: the empty string fails the assertion
`str.empty() == false` and yields no value; a string of at most 8 characters
that starts with a run of digits (the first one not `0`) followed by a
character that is no digit is not rejected: the constructor returns the value
of the digit run. -/
theorem ofString_not_validated (ds g : List Char) (d c : Char) (hd : isdigit d = true)
    (hd0 : d ≠ '0') (h : ∀ x ∈ ds, isdigit x = true) (hc : isdigit c = false)
    (hlen : (d :: ds ++ c :: g).length ≤ 8) :
    (∀ fuel, ofString fuel [] = .error .assertFailed) ∧
    (∀ fuel, 2 ≤ fuel →
      ofString fuel (d :: ds ++ c :: g) = .ok ⟨true, [(digitsValue (d :: ds) : Int)]⟩) := by
  refine ⟨fun fuel => rfl, ?_⟩
  intro fuel hf
  obtain ⟨f, rfl⟩ : ∃ f, fuel = f + 2 := ⟨fuel - 2, by omega⟩
  have hdm : d ≠ '-' := (not_sign_of_isdigit d hd).1
  have hall : ∀ x ∈ d :: ds, isdigit x = true := by
    intro x hx
    rcases List.mem_cons.mp hx with h1 | h1
    · rw [h1]; exact hd
    · exact h x h1
  have hdslen : (d :: ds).length ≤ 8 := by
    simp only [List.length_append, List.length_cons] at hlen ⊢
    omega
  have hstoi := stoi_digits_then_other (d :: ds) g c (by simp) hall hc hdslen
  have hch : charAt (d :: ds ++ c :: g) 0 = .ok d := charAt_cons_zero d (ds ++ c :: g)
  have hskip : skipZeros (d :: ds ++ c :: g) (f + 2) 0 = .ok 0 := by
    rw [skipZeros, hch]
    simp only [bind, Except.bind, if_neg hd0]
  have hsub : substr (d :: ds ++ c :: g)
      (max ((0 : Nat) : Int) (((d :: ds ++ c :: g).length : Int) - WIDTH)).toNat
      (((d :: ds ++ c :: g).length : Int) -
        max ((0 : Nat) : Int) (((d :: ds ++ c :: g).length : Int) - WIDTH)).toNat =
      .ok (d :: ds ++ c :: g) := by
    have h1 : (max ((0 : Nat) : Int) (((d :: ds ++ c :: g).length : Int) - WIDTH)).toNat = 0 := by
      simp only [WIDTH]; omega
    have h2 : (((d :: ds ++ c :: g).length : Int) -
        max ((0 : Nat) : Int) (((d :: ds ++ c :: g).length : Int) - WIDTH)).toNat =
        (d :: ds ++ c :: g).length := by
      simp only [WIDTH]; omega
    rw [h1, h2, substr, if_neg (by omega), List.drop_zero, List.take_length]
  have hloop : parseLoop (d :: ds ++ c :: g) 0 (f + 2) ((d :: ds ++ c :: g).length : Int)
      (max ((0 : Nat) : Int) (((d :: ds ++ c :: g).length : Int) - WIDTH)) [] =
      .ok [(digitsValue (d :: ds) : Int)] := by
    rw [parseLoop_step _ _ _ _ _ _ _ _ (by simp only [List.length_append, List.length_cons]; omega)
      hsub hstoi, parseLoop_exit _ _ _ _ _ _ (by omega)]
    rfl
  unfold ofString
  rw [if_neg (by simp)]
  simp only [hch, bind, Except.bind, hd, if_true, if_neg hdm, hskip, hloop]

/-- Instance of `ofString_not_validated` at the string `12a`. -/
theorem ofString_not_validated_witness :
    (∀ fuel, ofString fuel [] = .error .assertFailed) ∧
    (∀ fuel, 2 ≤ fuel →
      ofString fuel ('1' :: ['2'] ++ 'a' :: []) =
        .ok ⟨true, [(digitsValue ('1' :: ['2']) : Int)]⟩) :=
  ofString_not_validated ['2'] [] '1' 'a' (by decide) (by decide) (by decide) (by decide)
    (by decide)

/-- Claim C14, at the inputs `-5` and `-123456789012`: the constructor from
`long long` returns `sign = true`, because `sign = num >= 0` is computed after
`num` has been replaced by `-num`. -/
theorem ofLongLong_negative_sign_true (n : Nat) :
    ofLongLong (n + 2) (-5) = .ok ⟨true, [5]⟩ ∧
    ofLongLong (n + 3) (-123456789012) = .ok ⟨true, [56789012, 1234]⟩ :=
  ⟨rfl, rfl⟩

/-- Claim C15, at the inputs `5000000000000001 + 5000000000000001` and
`(-50000000) + (-50000000)`: the values returned by `operator+` have the limbs
`[2, 0]` (a most-significant zero limb) and the limbs `[0]` with
`sign = false` (a negative zero); neither satisfies the invariant. -/
theorem add_breaks_invariant (n : Nat) :
    Inv ⟨true, [1, 50000000]⟩ ∧
    add (n + 3) ⟨true, [1, 50000000]⟩ ⟨true, [1, 50000000]⟩ = .ok ⟨true, [2, 0]⟩ ∧
    ¬ Inv ⟨true, [2, 0]⟩ ∧
    Inv ⟨false, [50000000]⟩ ∧
    add (n + 2) ⟨false, [50000000]⟩ ⟨false, [50000000]⟩ = .ok ⟨false, [0]⟩ ∧
    ¬ Inv ⟨false, [0]⟩ :=
  ⟨by decide, rfl, by decide, by decide, rfl, by decide⟩

/-- Claim C16, at the inputs `7 + (-2)` and `(-7) * 0`: the loop of
`operator+` never ends, whatever the number of steps allowed, and `operator*`
calls `back()` on an empty vector. -/
theorem arithmetic_can_fail (fuel n : Nat) :
    Inv ⟨true, [7]⟩ ∧ Inv ⟨false, [2]⟩ ∧ Inv ⟨false, [7]⟩ ∧ Inv zero ∧
    add fuel ⟨true, [7]⟩ ⟨false, [2]⟩ = .error .outOfFuel ∧
    mul (n + 3) ⟨false, [7]⟩ zero = .error .emptyBack :=
  ⟨by decide, by decide, by decide, by decide,
    add_diff_sign_gt_diverges _ _ (by decide) (by decide) (by decide) (by decide) fuel, rfl⟩

/-- Claim C17, at the input `a = [3]`, `b = [5]`: the `return` statement
reached in `cmp` has the operand `-1`, but the return type is `bool`, so the
caller receives `true` and `cmp_res` is `1`, as it is for `a = [5]`, `b = [3]`. -/
theorem cmp_less_received_as_one :
    cmpReturned [3] [5] = .ok (-1) ∧ cmp [3] [5] = .ok true ∧ cmp_res [3] [5] = .ok 1 ∧
    cmp_res [5] [3] = .ok 1 :=
  ⟨rfl, rfl, rfl, rfl⟩

/-- Claim C18: in `operator*` on limbs in `[0, 10^8)`, for every step `(i, j)`
on an accumulator of `len(a) + len(b)` limbs in `[0, 10^8)`: the product `P`
is below `10^16` and fits a signed 64-bit integer; the value `s1` stored into
`new_vec[i+j]` and the value stored into `new_vec[i+j+1]` are at most
`2^31 - 1` (so storing them into an `int` does not change them); the carry is
below `10^8`, so the loop over `k` writes index `i+j+1` only, which is below
`len(a) + len(b)`; the step returns an accumulator of the same length with
limbs in `[0, 10^8)`.  Hence the whole double loop returns such an
accumulator. -/
theorem mul_no_overflow (a b : List Int) (ha : ∀ l ∈ a, 0 ≤ l ∧ l < BASE)
    (hb : ∀ l ∈ b, 0 ≤ l ∧ l < BASE) :
    (∀ (nv : List Int) (i j : Nat), (∀ l ∈ nv, 0 ≤ l ∧ l < BASE) →
      nv.length = a.length + b.length → i < a.length → j < b.length →
      (∀ P s1 carry : Int, P = a.getD i 0 * b.getD j 0 →
        s1 = nv.getD (i + j) 0 + P.tmod BASE → carry = s1.tdiv BASE + P.tdiv BASE →
        (0 ≤ P ∧ P < 10000000000000000 ∧ P ≤ 9223372036854775807) ∧
        (0 ≤ s1 ∧ s1 ≤ 2147483647 ∧ toInt32 s1 = s1) ∧
        (0 ≤ carry ∧ carry < BASE ∧ carry.tdiv BASE = 0) ∧
        (i + j + 1 < a.length + b.length) ∧
        (0 ≤ nv.getD (i + j + 1) 0 + carry ∧ nv.getD (i + j + 1) 0 + carry ≤ 2147483647 ∧
          toInt32 (nv.getD (i + j + 1) 0 + carry) = nv.getD (i + j + 1) 0 + carry)) ∧
      (∀ fuel, 2 ≤ fuel → ∃ w, mulStep fuel a b i j nv = .ok w ∧
        w.length = a.length + b.length ∧ ∀ l ∈ w, 0 ≤ l ∧ l < BASE)) ∧
    (∀ fuel, 2 ≤ fuel → ∃ acc,
      mulLoop fuel a b (List.replicate (a.length + b.length) 0) = .ok acc ∧
      acc.length = a.length + b.length ∧ ∀ l ∈ acc, 0 ≤ l ∧ l < BASE) := by
  refine ⟨?_, fun fuel hf => mulLoop_range fuel a b ha hb hf⟩
  intro nv i j hv hlen hi hj
  refine ⟨?_, fun fuel hf => mulStep_range fuel a b nv i j ha hb hv hi hj hlen hf⟩
  intro P s1 carry hP hs1 hcarry
  obtain ⟨hP0, hP1⟩ := limb_product_bounds _ _ (getD_bounds a ha i) (getD_bounds b hb j)
  obtain ⟨hg0, hg1⟩ := getD_bounds nv hv (i + j)
  obtain ⟨hh0, hh1⟩ := getD_bounds nv hv (i + j + 1)
  rw [← hP] at hP0 hP1
  have hB : (0 : Int) ≤ BASE := by simp [BASE]
  rw [Int.tmod_eq_emod hP0 hB] at hs1
  have hs0 : 0 ≤ s1 := by rw [hs1]; simp only [BASE]; omega
  rw [Int.tdiv_eq_ediv hs0 hB, Int.tdiv_eq_ediv hP0 hB] at hcarry
  simp only [BASE] at hg1 hh1 hs1 hcarry
  have hc0 : 0 ≤ carry := by omega
  have hc1 : carry < 100000000 := by omega
  rw [Int.tdiv_eq_ediv hc0 hB]
  simp only [BASE]
  refine ⟨⟨hP0, by omega, by omega⟩, ⟨hs0, by omega, toInt32_of_range _ (by omega) (by omega)⟩,
    ⟨hc0, hc1, by omega⟩, by omega, by omega, by omega,
    toInt32_of_range _ (by omega) (by omega)⟩

/-- Instance of `mul_no_overflow` at the limbs of `(10^16 - 1) * (10^16 - 1)`. -/
theorem mul_no_overflow_witness :
    (∀ l ∈ ([99999999, 99999999] : List Int), 0 ≤ l ∧ l < BASE) ∧
    ∃ acc, mulLoop 2 [99999999, 99999999] [99999999, 99999999]
        (List.replicate ([99999999, 99999999].length + [99999999, 99999999].length) 0) =
        .ok acc ∧
      acc.length = [99999999, 99999999].length + [99999999, 99999999].length ∧
      ∀ l ∈ acc, 0 ≤ l ∧ l < BASE :=
  ⟨by decide, (mul_no_overflow [99999999, 99999999] [99999999, 99999999] (by decide)
    (by decide)).2 2 (le_refl 2)⟩

/-- Claim C19: closed form of the equal-sign branch of `operator+` for limbs
in `[0, 10^8)`.  Each iteration of the loop goes from a state with `i = j` and
`carry = 0` to the next such state and appends `(a[i] + b[i]) mod 10^8`
(missing limbs counted as `0`); the result has `max(len a, len b)` limbs, limb
`k` being `(a[k] + b[k]) mod 10^8`, and the sign of the operands; it denotes
`|a| + |b|` whenever `a[k] + b[k] < 10^8` at every position. -/
theorem add_same_sign_closed_form (a b : BigInteger) (hs : a.sign = b.sign)
    (ha : ∀ l ∈ a.s, 0 ≤ l ∧ l < BASE) (hb : ∀ l ∈ b.s, 0 ≤ l ∧ l < BASE) :
    (∀ (fuel i : Nat) (nv : List Int), i < max a.s.length b.s.length →
      addLoop a.s b.s (fuel + 1) i i 0 nv =
        addLoop a.s b.s fuel (i + 1) (i + 1) 0
          (nv ++ [(a.s.getD i 0 + b.s.getD i 0) % BASE])) ∧
    (∀ fuel, max a.s.length b.s.length + 1 ≤ fuel →
      add fuel a b = .ok ⟨a.sign, (List.range (max a.s.length b.s.length)).map
        (fun k => (a.s.getD k 0 + b.s.getD k 0) % BASE)⟩) ∧
    ((List.range (max a.s.length b.s.length)).map
        (fun k => (a.s.getD k 0 + b.s.getD k 0) % BASE)).length =
      max a.s.length b.s.length ∧
    ((∀ k, a.s.getD k 0 + b.s.getD k 0 < BASE) →
      value ((List.range (max a.s.length b.s.length)).map
        (fun k => (a.s.getD k 0 + b.s.getD k 0) % BASE)) = value a.s + value b.s) := by
  refine ⟨fun fuel i nv hi => addLoop_step a.s b.s ha hb fuel i nv hi, ?_, by simp, ?_⟩
  · intro fuel hf
    have h := addLoop_spec a.s b.s ha hb (max a.s.length b.s.length) 0 fuel [] rfl hf
    simp only [add, if_pos hs, h, bind, Except.bind, List.nil_append, List.range_eq_range']
  · intro h
    have := value_pointwise_sum a.s b.s ha hb h (max a.s.length b.s.length) 0 rfl
    simpa only [List.range_eq_range', List.drop_zero] using this

/-- Instance of `add_same_sign_closed_form` at `700000012 + 30`. -/
theorem add_same_sign_closed_form_witness :
    (∀ (fuel i : Nat) (nv : List Int), i < max [12, 7].length [30].length →
      addLoop [12, 7] [30] (fuel + 1) i i 0 nv =
        addLoop [12, 7] [30] fuel (i + 1) (i + 1) 0
          (nv ++ [(([12, 7] : List Int).getD i 0 +
            ([30] : List Int).getD i 0) % BASE])) ∧
    (∀ fuel, max [12, 7].length [30].length + 1 ≤ fuel →
      add fuel ⟨true, [12, 7]⟩ ⟨true, [30]⟩ =
        .ok ⟨true, (List.range (max [12, 7].length [30].length)).map
          (fun k => (([12, 7] : List Int).getD k 0 +
            ([30] : List Int).getD k 0) % BASE)⟩) ∧
    ((List.range (max [12, 7].length [30].length)).map
        (fun k => (([12, 7] : List Int).getD k 0 +
          ([30] : List Int).getD k 0) % BASE)).length =
      max [12, 7].length [30].length ∧
    ((∀ k, ([12, 7] : List Int).getD k 0 + ([30] : List Int).getD k 0 < BASE) →
      value ((List.range (max [12, 7].length [30].length)).map
        (fun k => (([12, 7] : List Int).getD k 0 +
          ([30] : List Int).getD k 0) % BASE)) = value [12, 7] + value [30]) :=
  add_same_sign_closed_form ⟨true, [12, 7]⟩ ⟨true, [30]⟩ rfl (by decide)
    (by decide)

/-- Claim C20: for non-zero operands that satisfy the representation
invariant, one of which has exactly one limb, `operator*` returns (for every
step budget of at least `len(a) + len(b)`) one value `r` that satisfies the
invariant, has `sign = true` exactly when the signs are equal, and whose limbs
denote `|a| * |b|`; in particular `x * 1 = x` and `1 * x = x`. -/
theorem mul_single_limb_exact (a b : BigInteger) (ha : Inv a) (hb : Inv b)
    (ha0 : value a.s ≠ 0) (hb0 : value b.s ≠ 0)
    (h1 : a.s.length = 1 ∨ b.s.length = 1) :
    ∃ r, (∀ fuel, a.s.length + b.s.length ≤ fuel → mul fuel a b = .ok r) ∧ Inv r ∧
      r.sign = (a.sign == b.sign) ∧ value r.s = value a.s * value b.s ∧
      (b = ⟨true, [1]⟩ → r = a) ∧ (a = ⟨true, [1]⟩ → r = b) := by
  obtain ⟨hane, har, halast, -⟩ := ha
  obtain ⟨hbne, hbr, hblast, -⟩ := hb
  have h0 : value a.s * value b.s ≠ 0 := mul_ne_zero ha0 hb0
  have hcanon : ∀ fuel, a.s.length + b.s.length ≤ fuel →
      ∃ w, mul fuel a b = .ok ⟨a.sign == b.sign, w⟩ ∧ w ≠ [] ∧
        (∀ l ∈ w, 0 ≤ l ∧ l < BASE) ∧ w.getLast? ≠ some 0 ∧
        value w = value a.s * value b.s ∧
        w = (Nat.digits 100000000 (value a.s * value b.s).toNat).map Int.ofNat := by
    intro fuel hf
    obtain ⟨w, hw, hwne, hwr, hwlast, hwv⟩ := mul_single fuel a b har hbr ⟨hane, hbne⟩ h0 h1 hf
    refine ⟨w, hw, hwne, hwr, hwlast, hwv, ?_⟩
    have := limbs_eq_digits w hwr hwlast
    rwa [hwv] at this
  have hanz : a.s.getLast? ≠ some 0 := by
    intro h
    rw [halast h] at ha0
    exact ha0 (by decide)
  have hbnz : b.s.getLast? ≠ some 0 := by
    intro h
    rw [hblast h] at hb0
    exact hb0 (by decide)
  obtain ⟨w0, -, hw0ne, hw0r, hw0last, hval, hw0eq⟩ := hcanon (a.s.length + b.s.length) le_rfl
  refine ⟨⟨a.sign == b.sign, w0⟩, ?_, ⟨hw0ne, hw0r, fun h => absurd h hw0last, ?_⟩, rfl, hval,
    ?_, ?_⟩
  · intro fuel hf
    obtain ⟨w, hw, -, -, -, -, hweq⟩ := hcanon fuel hf
    rw [hw, hweq, ← hw0eq]
  · intro h
    simp only at h
    rw [h] at hw0last
    exact absurd rfl hw0last
  · intro hb1
    have hs : (a.sign == b.sign) = a.sign := by rw [hb1]; cases a.sign <;> rfl
    have hv1 : value b.s = 1 := by rw [hb1]; decide
    have hlimbs : w0 = a.s := by
      rw [hw0eq, hv1, mul_one]
      exact (limbs_eq_digits a.s har hanz).symm
    rw [hs, hlimbs]
  · intro ha1
    have hs : (a.sign == b.sign) = b.sign := by rw [ha1]; cases b.sign <;> rfl
    have hv1 : value a.s = 1 := by rw [ha1]; decide
    have hlimbs : w0 = b.s := by
      rw [hw0eq, hv1, one_mul]
      exact (limbs_eq_digits b.s hbr hbnz).symm
    rw [hs, hlimbs]

/-- Instance of `mul_single_limb_exact` at `(-9999999999999999) * 99999999`. -/
theorem mul_single_limb_exact_witness :
    ∃ r, (∀ fuel, [99999999, 99999999].length + [99999999].length ≤ fuel →
        mul fuel ⟨false, [99999999, 99999999]⟩ ⟨true, [99999999]⟩ = .ok r) ∧ Inv r ∧
      r.sign = (false == true) ∧ value r.s = value [99999999, 99999999] * value [99999999] ∧
      ((⟨true, [99999999]⟩ : BigInteger) = ⟨true, [1]⟩ → r = ⟨false, [99999999, 99999999]⟩) ∧
      ((⟨false, [99999999, 99999999]⟩ : BigInteger) = ⟨true, [1]⟩ → r = ⟨true, [99999999]⟩) :=
  mul_single_limb_exact ⟨false, [99999999, 99999999]⟩ ⟨true, [99999999]⟩ (by decide) (by decide)
    (by decide) (by decide) (Or.inr rfl)

end BigInteger
